import Mathlib

/-!
Verification of the Runway Explorer share pipeline.

Part A embeds the share-store HTTP service (an Express backend keeping an
in-memory `Map` of share records, with a POST create handler, a GET lookup
handler and an hourly expiry sweep).  Timestamps are modelled as `Int`
milliseconds, the JavaScript `Map` as an association list with
replace-or-append insertion, and each handler as a pure function from the
request data, the current clock value and (for creation) the drawn random
bytes to a response together with the updated store.

Part B embeds the client-side encryption layer: hex key parsing, JSON
serialization, UTF-8 encoding, AES-128-GCM with a prepended 12-byte IV, and
base64 transport encoding, exactly as composed by `encryptData` /
`decryptData`.
-/

namespace Backend

/-- A stored share: the opaque encrypted blob plus its two timestamps,
mirroring the object literal stored in the `shares` map. -/
structure ShareRecord where
  encryptedData : String
  expiresAt : Int
  createdAt : Int
  deriving DecidableEq, Repr

/-- The in-memory `shares` map, as an ordered association list. -/
abbrev Shares := List (String × ShareRecord)

/-- `Map.prototype.get`. -/
def mapGet (m : Shares) (k : String) : Option ShareRecord :=
  (m.find? (fun p => p.1 == k)).map (fun p => p.2)

/-- `Map.prototype.set`: update the existing entry in place, or append. -/
def mapSet (m : Shares) (k : String) (v : ShareRecord) : Shares :=
  match m with
  | [] => [(k, v)]
  | p :: rest => if p.1 == k then (k, v) :: rest else p :: mapSet rest k v

/-- `Map.prototype.delete`. -/
def mapDelete (m : Shares) (k : String) : Shares :=
  m.filter (fun p => p.1 != k)

/-- Body of `POST /api/shares`.  `encryptedData` is `none` when the field is
absent or not a string; `expiresIn` is `none` when absent. -/
structure PostBody where
  encryptedData : Option String
  expiresIn : Option Int
  deriving DecidableEq, Repr

/-- Observable result of the POST handler: status code plus JSON body. -/
inductive PostResponse where
  | created (id : String) (expiresAt : Int)
  | badRequest (error : String)
  deriving DecidableEq, Repr

/-- Observable result of the GET handler: status code plus JSON body. -/
inductive GetResponse where
  | ok (encryptedData : String)
  | notFound (error : String)
  | badRequest (error : String)
  deriving DecidableEq, Repr

/-- HTTP status code of a GET response. -/
def GetResponse.status : GetResponse → Nat
  | .ok _ => 200
  | .notFound _ => 404
  | .badRequest _ => 400

/-- Whether a GET response is the 404 not-found kind. -/
def GetResponse.isNotFound : GetResponse → Bool
  | .notFound _ => true
  | _ => false

/-- `30 * 24 * 60 * 60 * 1000`, the default TTL in milliseconds. -/
def defaultTtlMs : Int := 30 * 24 * 60 * 60 * 1000

/-- Lowercase hex digit for a nibble, as produced by `toString('hex')`. -/
def hexDigitChar (n : Nat) : Char :=
  if n < 10 then Char.ofNat ('0'.toNat + n) else Char.ofNat ('a'.toNat + (n - 10))

/-- `Buffer.toString('hex')`: two lowercase hex characters per byte. -/
def bytesToHex (bs : List Nat) : List Char :=
  bs.flatMap (fun b => [hexDigitChar (b / 16), hexDigitChar (b % 16)])

/-- The share identifier derived from the 16 random bytes drawn by
`crypto.randomBytes(16).toString('hex')`. -/
def shareIdOfBytes (bs : List Nat) : String :=
  String.mk (bytesToHex bs)

/-- One character of the `/^[0-9a-f]{32}$/` class. -/
def isHexLower (c : Char) : Bool :=
  ('0' ≤ c && c ≤ '9') || ('a' ≤ c && c ≤ 'f')

/-- The GET handler's identifier validation `/^[0-9a-f]{32}$/.test(id)`. -/
def isValidShareId (s : String) : Bool :=
  s.data.length == 32 && s.data.all isHexLower

/-- `expiresIn ? Date.now() + expiresIn * 1000 : Date.now() + 30d`: the
expiry computed from a truthy `expiresIn`, falling back to the default. -/
def expiryOf (e : Option Int) (now : Int) : Int :=
  match e with
  | some x => if x ≠ 0 then now + x * 1000 else now + defaultTtlMs
  | none => now + defaultTtlMs

/-- The `POST /api/shares` handler: validates `encryptedData` (absent,
non-string or empty string is falsy/invalid), derives the identifier from the
drawn random bytes, computes `expiresAt` from a truthy `expiresIn` or the
30-day default, and stores the record. -/
def createShare (shares : Shares) (body : PostBody) (now : Int)
    (randBytes : List Nat) : PostResponse × Shares :=
  match body.encryptedData with
  | none => (.badRequest "Invalid encryptedData", shares)
  | some s =>
    if s = "" then (.badRequest "Invalid encryptedData", shares)
    else
      let id := shareIdOfBytes randBytes
      let expiresAt := expiryOf body.expiresIn now
      (.created id expiresAt, mapSet shares id ⟨s, expiresAt, now⟩)

/-- The `GET /api/shares/:id` handler: validates the identifier shape, looks
the record up, and rejects-and-deletes it when `share.expiresAt` is truthy and
strictly in the past. -/
def getShare (shares : Shares) (id : String) (now : Int) :
    GetResponse × Shares :=
  if isValidShareId id = false then (.badRequest "Invalid share ID", shares)
  else
    match mapGet shares id with
    | none => (.notFound "Share not found", shares)
    | some share =>
      if share.expiresAt ≠ 0 ∧ share.expiresAt < now then
        (.notFound "Share has expired", mapDelete shares id)
      else
        (.ok share.encryptedData, shares)

/-- The hourly `setInterval` sweep: delete every record whose `expiresAt` is
truthy and strictly in the past. -/
def sweep (shares : Shares) (now : Int) : Shares :=
  shares.filter (fun p => !(decide (p.2.expiresAt ≠ 0 ∧ p.2.expiresAt < now)))

/-- The three operations that touch the `shares` map. -/
inductive StoreOp where
  | post (body : PostBody) (randBytes : List Nat)
  | get (id : String)
  | sweepOp
  deriving Repr

/-- The store left behind by one operation run at clock value `now`. -/
def applyOp (s : Shares) (op : StoreOp) (now : Int) : Shares :=
  match op with
  | .post body rb => (createShare s body now rb).2
  | .get id => (getShare s id now).2
  | .sweepOp => sweep s now

/-- Every record of the store satisfies `createdAt < expiresAt`. -/
def storeInv (s : Shares) : Bool :=
  s.all (fun p => decide (p.2.createdAt < p.2.expiresAt))

theorem mapGet_mapSet_self (m : Shares) (k : String) (v : ShareRecord) :
    mapGet (mapSet m k v) k = some v := by
  induction m with
  | nil => simp [mapSet, mapGet]
  | cons p rest ih =>
    by_cases h : p.1 = k
    · simp [mapSet, mapGet, h]
    · have hb : (p.1 == k) = false := beq_eq_false_iff_ne.mpr h
      simp only [mapSet, hb, if_false]
      simpa [mapGet, List.find?, hb] using ih

theorem mapGet_mapSet_ne (m : Shares) (k k' : String) (v : ShareRecord)
    (h : k' ≠ k) : mapGet (mapSet m k v) k' = mapGet m k' := by
  induction m with
  | nil => simp [mapSet, mapGet, List.find?, beq_eq_false_iff_ne.mpr (Ne.symm h)]
  | cons p rest ih =>
    by_cases hp : p.1 = k
    · subst hp
      simp [mapSet, mapGet, List.find?,
        beq_eq_false_iff_ne.mpr (fun hh => h hh.symm)]
    · have hb : (p.1 == k) = false := beq_eq_false_iff_ne.mpr hp
      simp only [mapSet, hb, if_false]
      by_cases hk' : p.1 = k'
      · simp [mapGet, List.find?, hk']
      · have hb' : (p.1 == k') = false := beq_eq_false_iff_ne.mpr hk'
        simpa [mapGet, List.find?, hb'] using ih

theorem mapGet_mapDelete_self (m : Shares) (k : String) :
    mapGet (mapDelete m k) k = none := by
  induction m with
  | nil => simp [mapDelete, mapGet]
  | cons p rest ih =>
    by_cases h : p.1 = k
    · simpa [mapDelete, h] using ih
    · have hb : (p.1 == k) = false := beq_eq_false_iff_ne.mpr h
      simp only [mapDelete, List.filter]
      simp [hb, mapGet, List.find?, bne, mapDelete, ih]

theorem storeInv_filter (s : Shares) (q : String × ShareRecord → Bool)
    (h : storeInv s = true) : storeInv (s.filter q) = true := by
  simp only [storeInv, List.all_eq_true] at h ⊢
  exact fun p hp => h p (List.mem_of_mem_filter hp)

theorem mem_mapSet (s : Shares) (k : String) (v : ShareRecord) :
    ∀ p ∈ mapSet s k v, p = (k, v) ∨ p ∈ s := by
  induction s with
  | nil => intro p hp; simp only [mapSet, List.mem_singleton] at hp; left; exact hp
  | cons q rest ih =>
    intro p hp
    by_cases h : q.1 = k
    · rw [show mapSet (q :: rest) k v = (k, v) :: rest from by
        simp [mapSet, h]] at hp
      rcases List.mem_cons.mp hp with hq | hp2
      · left; exact hq
      · right; exact List.mem_cons_of_mem _ hp2
    · rw [show mapSet (q :: rest) k v = q :: mapSet rest k v from by
        simp [mapSet, beq_eq_false_iff_ne.mpr h]] at hp
      rcases List.mem_cons.mp hp with hq | hp2
      · right; rw [hq]; exact List.mem_cons_self _ _
      · rcases ih p hp2 with h1 | h1
        · left; exact h1
        · right; exact List.mem_cons_of_mem _ h1

theorem storeInv_mapSet (s : Shares) (k : String) (v : ShareRecord)
    (hs : storeInv s = true) (hv : v.createdAt < v.expiresAt) :
    storeInv (mapSet s k v) = true := by
  simp only [storeInv, List.all_eq_true, decide_eq_true_eq] at hs ⊢
  intro p hp
  rcases mem_mapSet s k v p hp with rfl | h
  · exact hv
  · exact hs p h

theorem hexDigitChar_isHexLower : ∀ n, n < 16 → isHexLower (hexDigitChar n) = true := by
  decide

theorem bytesToHex_length (bs : List Nat) :
    (bytesToHex bs).length = 2 * bs.length := by
  induction bs with
  | nil => rfl
  | cons b rest ih =>
    have hstep : bytesToHex (b :: rest)
        = [hexDigitChar (b / 16), hexDigitChar (b % 16)] ++ bytesToHex rest := by
      simp [bytesToHex]
    rw [hstep, List.length_append, ih]
    simp only [List.length_cons, List.length_nil]
    omega

theorem isValidShareId_shareIdOfBytes (bs : List Nat)
    (hlen : bs.length = 16) (hb : ∀ b ∈ bs, b < 256) :
    isValidShareId (shareIdOfBytes bs) = true := by
  have hall : ∀ c ∈ bytesToHex bs, isHexLower c = true := by
    intro c hc
    simp only [bytesToHex, List.mem_flatMap] at hc
    obtain ⟨b, hbmem, hcmem⟩ := hc
    have hb256 := hb b hbmem
    have h1 : b / 16 < 16 := by omega
    have h2 : b % 16 < 16 := Nat.mod_lt _ (by omega)
    simp only [List.mem_cons, List.not_mem_nil, or_false] at hcmem
    rcases hcmem with rfl | rfl
    · exact hexDigitChar_isHexLower _ h1
    · exact hexDigitChar_isHexLower _ h2
  simp only [isValidShareId, shareIdOfBytes, Bool.and_eq_true, beq_iff_eq,
    List.all_eq_true]
  constructor
  · show (bytesToHex bs).length = 32
    rw [bytesToHex_length, hlen]
  · intro c hc
    exact hall c hc

theorem expiryOf_pos (e : Option Int) (now : Int)
    (he : ∀ x, e = some x → 0 ≤ x) : now < expiryOf e now := by
  cases e with
  | none => simp only [expiryOf, defaultTtlMs]; omega
  | some x =>
    have hx := he x rfl
    by_cases h0 : x = 0
    · subst h0; simp only [expiryOf, ne_eq, not_true_eq_false, if_false,
        defaultTtlMs]; omega
    · simp only [expiryOf, ne_eq, h0, not_false_eq_true, if_true]
      have h1 : 1 ≤ x := by omega
      omega

theorem createShare_valid (s : Shares) (data : String) (e : Option Int)
    (now : Int) (rb : List Nat) (hd : data ≠ "") :
    createShare s ⟨some data, e⟩ now rb =
      (.created (shareIdOfBytes rb) (expiryOf e now),
       mapSet s (shareIdOfBytes rb) ⟨data, expiryOf e now, now⟩) := by
  simp [createShare, hd]

theorem getShare_snd (s : Shares) (id : String) (now : Int) :
    (getShare s id now).2 = s ∨ (getShare s id now).2 = mapDelete s id := by
  by_cases hv : isValidShareId id = false
  · simp [getShare, hv]
  · rcases hg : mapGet s id with _ | r
    · simp [getShare, hv, hg]
    · by_cases hc : r.expiresAt ≠ 0 ∧ r.expiresAt < now
      · simp [getShare, hv, hg, hc]
      · simp [getShare, hv, hg, hc]

/-- C3, counterexample: a record whose `expiresAt` equals the read-time clock
(`expiresAt ≤ now` holds) is still returned with its blob, because the handler
compares with strict `<`. -/
theorem claim3_counterexample :
    ((⟨"secret", 5, 0⟩ : ShareRecord).expiresAt ≤ 5) ∧
    (getShare [(shareIdOfBytes (List.replicate 16 0), ⟨"secret", 5, 0⟩)]
        (shareIdOfBytes (List.replicate 16 0)) 5).1 = GetResponse.ok "secret" :=
  ⟨by decide, by decide⟩

/-- C3 (amended): for a well-formed identifier the lookup answers not-found
exactly when the record is absent, or present with a truthy (nonzero)
`expiresAt` strictly earlier than `now`; the boundary case `expiresAt = now`
(and the falsy case `expiresAt = 0`) returns the record. -/
theorem claim3_expiry_notFound (s : Shares) (id : String) (now : Int)
    (hv : isValidShareId id = true) :
    (getShare s id now).1.isNotFound = true ↔
      mapGet s id = none ∨
        ∃ r, mapGet s id = some r ∧ r.expiresAt ≠ 0 ∧ r.expiresAt < now := by
  rcases hg : mapGet s id with _ | r
  · simp [getShare, hv, hg, GetResponse.isNotFound]
  · by_cases hc : r.expiresAt ≠ 0 ∧ r.expiresAt < now
    · simp [getShare, hv, hg, hc, GetResponse.isNotFound]
    · simp [getShare, hv, hg, hc, GetResponse.isNotFound]

/-- C3 (witness): the amended statement instantiated at the empty store and a
well-formed identifier. -/
theorem claim3_expiry_notFound_witness :
    isValidShareId (shareIdOfBytes (List.replicate 16 0)) = true ∧
    ((getShare [] (shareIdOfBytes (List.replicate 16 0)) 7).1.isNotFound = true ↔
      mapGet ([] : Shares) (shareIdOfBytes (List.replicate 16 0)) = none ∨
        ∃ r, mapGet ([] : Shares) (shareIdOfBytes (List.replicate 16 0)) = some r ∧
          r.expiresAt ≠ 0 ∧ r.expiresAt < 7) :=
  ⟨by decide,
    claim3_expiry_notFound [] (shareIdOfBytes (List.replicate 16 0)) 7 (by decide)⟩

/-- C4: creating a share from a non-empty blob (with an absent or non-negative
`expiresIn`) and immediately looking the returned identifier up yields the
stored blob byte-for-byte, with the store left as the creation left it. -/
theorem claim4_create_get_roundtrip (s : Shares) (data : String) (e : Option Int)
    (now : Int) (rb : List Nat) (hd : data ≠ "")
    (hlen : rb.length = 16) (hb : ∀ b ∈ rb, b < 256)
    (he : ∀ x, e = some x → 0 ≤ x) :
    ∃ id expAt,
      (createShare s ⟨some data, e⟩ now rb).1 = PostResponse.created id expAt ∧
      getShare (createShare s ⟨some data, e⟩ now rb).2 id now =
        (GetResponse.ok data, (createShare s ⟨some data, e⟩ now rb).2) := by
  have hcs := createShare_valid s data e now rb hd
  have hid := isValidShareId_shareIdOfBytes rb hlen hb
  have hlt := expiryOf_pos e now he
  refine ⟨shareIdOfBytes rb, expiryOf e now, by rw [hcs], ?_⟩
  rw [hcs]
  simp only [getShare, hid, mapGet_mapSet_self]
  rw [if_neg (by simp)]
  rw [if_neg (fun hcon => absurd hcon.2 (by omega))]

/-- C4 (witness): a concrete create-then-get run returning the blob. -/
theorem claim4_create_get_roundtrip_witness :
    ("dGVzdA==" : String) ≠ "" ∧ (List.replicate 16 0).length = 16 ∧
    (∀ b ∈ List.replicate 16 (0 : Nat), b < 256) ∧
    (∀ x : Int, (none : Option Int) = some x → 0 ≤ x) ∧
    (∃ id expAt,
      (createShare [] ⟨some "dGVzdA==", none⟩ 41 (List.replicate 16 0)).1 =
        PostResponse.created id expAt ∧
      getShare (createShare [] ⟨some "dGVzdA==", none⟩ 41 (List.replicate 16 0)).2
          id 41 =
        (GetResponse.ok "dGVzdA==",
         (createShare [] ⟨some "dGVzdA==", none⟩ 41 (List.replicate 16 0)).2)) :=
  ⟨by decide, by decide, by decide, fun _ h => Option.noConfusion h,
    claim4_create_get_roundtrip [] "dGVzdA==" none 41 (List.replicate 16 0)
      (by decide) (by decide) (by decide) (fun _ h => Option.noConfusion h)⟩

/-- C5, counterexample: the missing-record run answers with error message
`Share not found` while the expired-record run answers `Share has expired`;
the two observable error results differ, so the caller can distinguish them. -/
theorem claim5_counterexample :
    (getShare [] (shareIdOfBytes (List.replicate 16 0)) 100).1 ≠
      (getShare [(shareIdOfBytes (List.replicate 16 0), ⟨"x", 50, 0⟩)]
        (shareIdOfBytes (List.replicate 16 0)) 100).1 := by
  decide

/-- C5 (amended): only the HTTP status is shared — both the missing-record and
the expired-record runs answer status 404 — while the JSON error messages
differ, so full observable indistinguishability fails. -/
theorem claim5_status_404 (s : Shares) (id : String) (now : Int)
    (hv : isValidShareId id = true)
    (h : mapGet s id = none ∨
      ∃ r, mapGet s id = some r ∧ r.expiresAt ≠ 0 ∧ r.expiresAt < now) :
    (getShare s id now).1.status = 404 := by
  rcases h with hn | ⟨r, hr, hc1, hc2⟩
  · simp [getShare, hv, hn, GetResponse.status]
  · simp [getShare, hv, hr, hc1, hc2, GetResponse.status]

/-- C5 (witness): the 404 status on a concrete expired record. -/
theorem claim5_status_404_witness :
    isValidShareId (shareIdOfBytes (List.replicate 16 0)) = true ∧
    (mapGet [(shareIdOfBytes (List.replicate 16 0), ⟨"x", 50, 0⟩)]
        (shareIdOfBytes (List.replicate 16 0)) = none ∨
      ∃ r, mapGet [(shareIdOfBytes (List.replicate 16 0), ⟨"x", 50, 0⟩)]
          (shareIdOfBytes (List.replicate 16 0)) = some r ∧
        r.expiresAt ≠ 0 ∧ r.expiresAt < 100) ∧
    (getShare [(shareIdOfBytes (List.replicate 16 0), ⟨"x", 50, 0⟩)]
        (shareIdOfBytes (List.replicate 16 0)) 100).1.status = 404 :=
  ⟨by decide, Or.inr ⟨⟨"x", 50, 0⟩, by decide, by decide, by decide⟩,
    claim5_status_404 _ _ 100 (by decide)
      (Or.inr ⟨⟨"x", 50, 0⟩, by decide, by decide, by decide⟩)⟩

/-- C6, counterexample: the handler derives the identifier from the drawn
random bytes without checking whether it is in use; when the drawn bytes
collide with an existing record's identifier, that record is overwritten. -/
theorem claim6_counterexample :
    mapGet [(shareIdOfBytes (List.replicate 16 0), ⟨"old", 100, 0⟩)]
      (shareIdOfBytes (List.replicate 16 0)) = some ⟨"old", 100, 0⟩ ∧
    (createShare [(shareIdOfBytes (List.replicate 16 0), ⟨"old", 100, 0⟩)]
        ⟨some "new", none⟩ 0 (List.replicate 16 0)).1 =
      PostResponse.created (shareIdOfBytes (List.replicate 16 0)) 2592000000 ∧
    mapGet (createShare [(shareIdOfBytes (List.replicate 16 0), ⟨"old", 100, 0⟩)]
        ⟨some "new", none⟩ 0 (List.replicate 16 0)).2
      (shareIdOfBytes (List.replicate 16 0)) ≠ some ⟨"old", 100, 0⟩ :=
  ⟨by decide, by decide, by decide⟩

/-- C6 (amended): when the randomly derived identifier is fresh (not a key of
the store), creation overwrites nothing: every previously stored record is
still retrievable unchanged. -/
theorem claim6_no_overwrite_when_fresh (s : Shares) (body : PostBody)
    (now : Int) (rb : List Nat)
    (hfresh : mapGet s (shareIdOfBytes rb) = none) :
    ∀ k r, mapGet s k = some r →
      mapGet (createShare s body now rb).2 k = some r := by
  intro k r hk
  have hk_ne : k ≠ shareIdOfBytes rb := by
    intro hkk; rw [hkk, hfresh] at hk; exact Option.noConfusion hk
  obtain ⟨ed, ei⟩ := body
  cases ed with
  | none => simpa [createShare] using hk
  | some str =>
    by_cases hstr : str = ""
    · simpa [createShare, hstr] using hk
    · rw [createShare_valid s str ei now rb hstr]
      rw [mapGet_mapSet_ne _ _ _ _ hk_ne]
      exact hk

/-- C6 (witness): freshness at concrete distinct identifiers. -/
theorem claim6_no_overwrite_when_fresh_witness :
    mapGet [(shareIdOfBytes (List.replicate 16 0), ⟨"old", 100, 0⟩)]
      (shareIdOfBytes (List.replicate 16 1)) = none ∧
    (∀ k r, mapGet [(shareIdOfBytes (List.replicate 16 0), ⟨"old", 100, 0⟩)] k = some r →
      mapGet (createShare [(shareIdOfBytes (List.replicate 16 0), ⟨"old", 100, 0⟩)]
        ⟨some "new", none⟩ 0 (List.replicate 16 1)).2 k = some r) :=
  ⟨by decide,
    claim6_no_overwrite_when_fresh _ ⟨some "new", none⟩ 0 (List.replicate 16 1)
      (by decide)⟩

/-- C7, counterexample: a negative `expiresIn` is truthy, so creation stores a
record with `expiresAt` strictly before `createdAt`, breaking the claimed
invariant `expiresAt > createdAt`. -/
theorem claim7_counterexample :
    mapGet (createShare [] ⟨some "x", some (-1)⟩ 0 (List.replicate 16 0)).2
      (shareIdOfBytes (List.replicate 16 0)) = some ⟨"x", -1000, 0⟩ ∧
    ¬((-1000 : Int) > (0 : Int)) :=
  ⟨by decide, by decide⟩

/-- C7 (amended): `expiresAt > createdAt` holds for every record stored with an
absent or non-negative `expiresIn`, and is preserved by every store operation
(creation, lookup, sweep); a negative `expiresIn` breaks it at creation. -/
theorem claim7_invariant_preserved (s : Shares) (op : StoreOp) (now : Int)
    (hs : storeInv s = true)
    (hop : ∀ body rb x, op = .post body rb → body.expiresIn = some x → 0 ≤ x) :
    storeInv (applyOp s op now) = true := by
  cases op with
  | post body rb =>
    obtain ⟨ed, ei⟩ := body
    cases ed with
    | none => simpa [applyOp, createShare] using hs
    | some str =>
      by_cases hstr : str = ""
      · simpa [applyOp, createShare, hstr] using hs
      · have he : ∀ x, ei = some x → 0 ≤ x :=
          fun x hx => hop ⟨some str, ei⟩ rb x rfl hx
        have hlt := expiryOf_pos ei now he
        have hcs := createShare_valid s str ei now rb hstr
        simp only [applyOp, hcs]
        exact storeInv_mapSet _ _ _ hs hlt
  | get id =>
    rcases getShare_snd s id now with h | h
    · simpa [applyOp, h] using hs
    · simp only [applyOp, h, mapDelete]
      exact storeInv_filter _ _ hs
  | sweepOp => exact storeInv_filter _ _ hs

/-- C7 (witness): the preserved invariant on a concrete creation. -/
theorem claim7_invariant_preserved_witness :
    storeInv [] = true ∧
    (∀ body rb x,
      StoreOp.post ⟨some "x", some 60⟩ (List.replicate 16 0) = .post body rb →
        body.expiresIn = some x → 0 ≤ x) ∧
    storeInv (applyOp [] (.post ⟨some "x", some 60⟩ (List.replicate 16 0)) 0) = true :=
  ⟨by decide,
    fun body rb x h1 h2 => by cases h1; simp at h2; omega,
    claim7_invariant_preserved [] _ 0 (by decide)
      (fun body rb x h1 h2 => by cases h1; simp at h2; omega)⟩

/-- C8: a syntactically invalid identifier is rejected with the 400 response,
which is not the not-found kind; the store is left unchanged and the response
does not depend on the store at all (no lookup is observable). -/
theorem claim8_invalid_id_rejected (s : Shares) (id : String) (now : Int)
    (hv : isValidShareId id = false) :
    getShare s id now = (GetResponse.badRequest "Invalid share ID", s) ∧
    (getShare s id now).1.status = 400 ∧
    (getShare s id now).1.isNotFound = false ∧
    ∀ s' : Shares, (getShare s' id now).1 = (getShare s id now).1 := by
  refine ⟨by simp [getShare, hv], ?_, ?_, ?_⟩ <;>
    simp [getShare, hv, GetResponse.status, GetResponse.isNotFound]

/-- C8 (witness): the rejection at a concrete malformed identifier. -/
theorem claim8_invalid_id_rejected_witness :
    isValidShareId "not-a-valid-id" = false ∧
    (getShare [(shareIdOfBytes (List.replicate 16 0), ⟨"x", 50, 0⟩)]
        "not-a-valid-id" 100 =
      (GetResponse.badRequest "Invalid share ID",
       [(shareIdOfBytes (List.replicate 16 0), ⟨"x", 50, 0⟩)]) ∧
    (getShare [(shareIdOfBytes (List.replicate 16 0), ⟨"x", 50, 0⟩)]
        "not-a-valid-id" 100).1.status = 400 ∧
    (getShare [(shareIdOfBytes (List.replicate 16 0), ⟨"x", 50, 0⟩)]
        "not-a-valid-id" 100).1.isNotFound = false ∧
    ∀ s' : Shares, (getShare s' "not-a-valid-id" 100).1 =
      (getShare [(shareIdOfBytes (List.replicate 16 0), ⟨"x", 50, 0⟩)]
        "not-a-valid-id" 100).1) :=
  ⟨by decide, claim8_invalid_id_rejected _ "not-a-valid-id" 100 (by decide)⟩

/-- C9, counterexample: a reachable record (created with a negative
`expiresIn`) whose `expiresAt` is `0` — an expiry time long in the past — is
neither deleted nor rejected on read: the falsy-`expiresAt` guard skips the
expiry check and the blob is returned. -/
theorem claim9_counterexample :
    (createShare [] ⟨some "x", some (-1000)⟩ 1000000 (List.replicate 16 0)).2 =
      [(shareIdOfBytes (List.replicate 16 0), ⟨"x", 0, 1000000⟩)] ∧
    (0 : Int) < 2000000 ∧
    getShare [(shareIdOfBytes (List.replicate 16 0), ⟨"x", 0, 1000000⟩)]
        (shareIdOfBytes (List.replicate 16 0)) 2000000 =
      (GetResponse.ok "x",
       [(shareIdOfBytes (List.replicate 16 0), ⟨"x", 0, 1000000⟩)]) :=
  ⟨by decide, by decide, by decide⟩

/-- C9 (amended): when the found record has a truthy (nonzero) `expiresAt`
strictly before `now`, the read deletes it before answering `Share has
expired`, and a second lookup takes the record-absent path (`Share not
found`); a record with falsy `expiresAt` is instead treated as unexpired. -/
theorem claim9_lazy_delete (s : Shares) (id : String) (now : Int)
    (r : ShareRecord) (hv : isValidShareId id = true) (hr : mapGet s id = some r)
    (h0 : r.expiresAt ≠ 0) (hlt : r.expiresAt < now) :
    (getShare s id now).1 = GetResponse.notFound "Share has expired" ∧
    mapGet (getShare s id now).2 id = none ∧
    (getShare (getShare s id now).2 id now).1 =
      GetResponse.notFound "Share not found" := by
  have hfst : getShare s id now =
      (GetResponse.notFound "Share has expired", mapDelete s id) := by
    simp [getShare, hv, hr, h0, hlt]
  refine ⟨by rw [hfst], ?_, ?_⟩
  · rw [hfst]; exact mapGet_mapDelete_self s id
  · rw [hfst]; simp [getShare, hv, mapGet_mapDelete_self]

/-- C9 (witness): lazy deletion on a concrete expired record. -/
theorem claim9_lazy_delete_witness :
    isValidShareId (shareIdOfBytes (List.replicate 16 0)) = true ∧
    mapGet [(shareIdOfBytes (List.replicate 16 0), ⟨"x", 5, 0⟩)]
      (shareIdOfBytes (List.replicate 16 0)) = some ⟨"x", 5, 0⟩ ∧
    ((5 : Int) ≠ 0) ∧ ((5 : Int) < 10) ∧
    ((getShare [(shareIdOfBytes (List.replicate 16 0), ⟨"x", 5, 0⟩)]
        (shareIdOfBytes (List.replicate 16 0)) 10).1 =
      GetResponse.notFound "Share has expired" ∧
    mapGet (getShare [(shareIdOfBytes (List.replicate 16 0), ⟨"x", 5, 0⟩)]
        (shareIdOfBytes (List.replicate 16 0)) 10).2
      (shareIdOfBytes (List.replicate 16 0)) = none ∧
    (getShare (getShare [(shareIdOfBytes (List.replicate 16 0), ⟨"x", 5, 0⟩)]
        (shareIdOfBytes (List.replicate 16 0)) 10).2
      (shareIdOfBytes (List.replicate 16 0)) 10).1 =
      GetResponse.notFound "Share not found") :=
  ⟨by decide, by decide, by decide, by decide,
    claim9_lazy_delete _ _ 10 ⟨"x", 5, 0⟩ (by decide) (by decide)
      (by decide) (by decide)⟩

/-- C10: an `expiresIn` of `0` — like an absent one — is falsy, so the stored
record (and the creation response) carries the 30-day default expiry
`now + 2592000000`, not `now`. -/
theorem claim10_falsy_ttl_default (s : Shares) (data : String) (now : Int)
    (rb : List Nat) (hd : data ≠ "") :
    (createShare s ⟨some data, some 0⟩ now rb).1 =
      PostResponse.created (shareIdOfBytes rb) (now + 2592000000) ∧
    mapGet (createShare s ⟨some data, some 0⟩ now rb).2 (shareIdOfBytes rb) =
      some ⟨data, now + 2592000000, now⟩ ∧
    (createShare s ⟨some data, none⟩ now rb).1 =
      PostResponse.created (shareIdOfBytes rb) (now + 2592000000) ∧
    mapGet (createShare s ⟨some data, none⟩ now rb).2 (shareIdOfBytes rb) =
      some ⟨data, now + 2592000000, now⟩ ∧
    now + 2592000000 ≠ now := by
  have h0 : expiryOf (some 0) now = now + 2592000000 := by
    simp only [expiryOf, ne_eq, not_true_eq_false, if_false]
    norm_num [defaultTtlMs]
  have hn : expiryOf none now = now + 2592000000 := by
    simp only [expiryOf]
    norm_num [defaultTtlMs]
  rw [createShare_valid s data (some 0) now rb hd,
    createShare_valid s data none now rb hd, h0, hn]
  refine ⟨rfl, mapGet_mapSet_self _ _ _, rfl, mapGet_mapSet_self _ _ _, by omega⟩

/-- C10 (witness): the default expiry on a concrete creation. -/
theorem claim10_falsy_ttl_default_witness :
    ("blob" : String) ≠ "" ∧
    ((createShare [] ⟨some "blob", some 0⟩ 7 (List.replicate 16 0)).1 =
      PostResponse.created (shareIdOfBytes (List.replicate 16 0)) (7 + 2592000000) ∧
    mapGet (createShare [] ⟨some "blob", some 0⟩ 7 (List.replicate 16 0)).2
      (shareIdOfBytes (List.replicate 16 0)) = some ⟨"blob", 7 + 2592000000, 7⟩ ∧
    (createShare [] ⟨some "blob", none⟩ 7 (List.replicate 16 0)).1 =
      PostResponse.created (shareIdOfBytes (List.replicate 16 0)) (7 + 2592000000) ∧
    mapGet (createShare [] ⟨some "blob", none⟩ 7 (List.replicate 16 0)).2
      (shareIdOfBytes (List.replicate 16 0)) = some ⟨"blob", 7 + 2592000000, 7⟩ ∧
    (7 : Int) + 2592000000 ≠ 7) :=
  ⟨by decide, claim10_falsy_ttl_default [] "blob" 7 (List.replicate 16 0) (by decide)⟩

end Backend

namespace Frontend

/-! Client-side encryption layer (`encryptData` / `decryptData`): AES-128-GCM
over the UTF-8 bytes of the JSON serialization, with a 12-byte IV prepended
and the result base64-encoded.  Bytes are `Nat` values below 256. -/

/-- Big-endian bytes of `n`, exactly `k` of them (most significant first). -/
def natToBeBytes : Nat → Nat → List Nat
  | 0, _ => []
  | k + 1, n => natToBeBytes k (n / 256) ++ [n % 256]

/-- Big-endian byte list to `Nat`. -/
def beBytesToNat (bs : List Nat) : Nat :=
  bs.foldl (fun a b => 256 * a + b) 0

/-- The AES S-box, packed little-endian: byte `i` of the constant is
`S(i)`. -/
def sboxC : Nat :=
  0x16bb54b00f2d99416842e6bf0d89a18cdf2855cee9871e9b948ed9691198f8e19e1dc186b95735610ef6034866b53e708a8bbd4b1f74dde8c6b4a61c2e2578ba08ae7a65eaf4566ca94ed58d6d37c8e779e4959162acd3c25c2406490a3a32e0db0b5ede14b8ee4688902a22dc4f816073195d643d7ea7c41744975fec130ccdd2f3ff1021dab6bcf5389d928f40a351a89f3c507f02f94585334d43fbaaefd0cf584c4a39becb6a5bb1fc20ed00d153842fe329b3d63b52a05a6e1b1a2c830975b227ebe28012079a059618c323c7041531d871f1e5a534ccf73f362693fdb7c072a49cafa2d4adf04759fa7dc982ca76abd7fe2b670130c56f6bf27b777c63

/-- S-box lookup. -/
def sbox (b : Nat) : Nat :=
  (sboxC >>> (8 * b)) &&& 255

/-- Multiplication by `x` in GF(2^8) modulo `x^8 + x^4 + x^3 + x + 1`. -/
def xtime (b : Nat) : Nat :=
  if b < 128 then 2 * b else (2 * b) ^^^ 0x11B

/-- Round constants `Rcon[1..10]` for AES-128 key expansion. -/
def rcon (i : Nat) : Nat :=
  [0, 1, 2, 4, 8, 16, 32, 64, 128, 27, 54].getD i 0

/-- Byte-wise xor of two words or states. -/
def xorBytes (a b : List Nat) : List Nat :=
  List.zipWith Nat.xor a b

/-- `RotWord` of a 4-byte word. -/
def rotWord : List Nat → List Nat
  | [a, b, c, d] => [b, c, d, a]
  | l => l

/-- `SubWord`: S-box each byte. -/
def subWord (w : List Nat) : List Nat :=
  w.map sbox

/-- AES-128 key schedule: the 44 expanded 4-byte words. -/
def keyWords (key : List Nat) : List (List Nat) :=
  (List.range 40).foldl
    (fun ws j =>
      let i := j + 4
      let wp := ws.getD (i - 1) []
      let w4 := ws.getD (i - 4) []
      let t :=
        if i % 4 == 0 then xorBytes (subWord (rotWord wp)) [rcon (i / 4), 0, 0, 0]
        else wp
      ws ++ [xorBytes w4 t])
    [key.take 4, (key.drop 4).take 4, (key.drop 8).take 4, (key.drop 12).take 4]

/-- Round key `r` (16 bytes, column-major). -/
def roundKey (key : List Nat) (r : Nat) : List Nat :=
  (((keyWords key).drop (4 * r)).take 4).flatten

/-- `SubBytes` on the 16-byte column-major state. -/
def subBytes (s : List Nat) : List Nat :=
  s.map sbox

/-- `ShiftRows` on the 16-byte column-major state. -/
def shiftRows (s : List Nat) : List Nat :=
  (List.range 16).map (fun i => s.getD (i % 4 + 4 * ((i / 4 + i % 4) % 4)) 0)

/-- `MixColumns` on one 4-byte column. -/
def mixColumn : List Nat → List Nat
  | [a0, a1, a2, a3] =>
    [xtime a0 ^^^ (xtime a1 ^^^ a1) ^^^ a2 ^^^ a3,
     a0 ^^^ xtime a1 ^^^ (xtime a2 ^^^ a2) ^^^ a3,
     a0 ^^^ a1 ^^^ xtime a2 ^^^ (xtime a3 ^^^ a3),
     (xtime a0 ^^^ a0) ^^^ a1 ^^^ a2 ^^^ xtime a3]
  | l => l

/-- `MixColumns` on the 16-byte column-major state. -/
def mixColumns (s : List Nat) : List Nat :=
  (List.range 4).flatMap (fun c => mixColumn ((s.drop (4 * c)).take 4))

/-- One middle AES round. -/
def aesRound (rk s : List Nat) : List Nat :=
  xorBytes (mixColumns (shiftRows (subBytes s))) rk

/-- The final AES round (no `MixColumns`). -/
def aesFinalRound (rk s : List Nat) : List Nat :=
  xorBytes (shiftRows (subBytes s)) rk

/-- AES-128 block encryption of 16 input bytes, as bytes. -/
def aesEncryptBytes (key block : List Nat) : List Nat :=
  let s0 := xorBytes block (roundKey key 0)
  let s9 := (List.range 9).foldl (fun s r => aesRound (roundKey key (r + 1)) s) s0
  aesFinalRound (roundKey key 10) s9

/-- AES-128 block encryption, the 128-bit result as a big-endian `Nat`. -/
def aesBlockNat (key block : List Nat) : Nat :=
  beBytesToNat (aesEncryptBytes key block)

/-- GF(2^128) multiplication in GCM's reflected representation (blocks as
big-endian 128-bit naturals, reduction polynomial `R = e1…`). -/
def gfMul (x y : Nat) : Nat :=
  ((List.range 128).foldl
    (fun zv i =>
      let z := if (x >>> (127 - i)) &&& 1 == 1 then zv.1 ^^^ zv.2 else zv.1
      let v := if zv.2 &&& 1 == 1
        then (zv.2 >>> 1) ^^^ 0xe1000000000000000000000000000000
        else zv.2 >>> 1
      (z, v))
    ((0 : Nat), y)).1

/-- `GHASH_H` over a list of 128-bit blocks. -/
def ghashBlocks (h : Nat) (blks : List Nat) : Nat :=
  blks.foldl (fun y x => gfMul (y ^^^ x) h) 0

/-- Split a byte list into chunks of (at most) 16 bytes. -/
def chunk16 (l : List Nat) : List (List Nat) :=
  match l with
  | [] => []
  | x :: rest => (x :: rest.take 15) :: chunk16 (rest.drop 15)
termination_by l.length
decreasing_by simp; omega

/-- Zero-pad a byte list to a multiple of 16 bytes. -/
def padTo16 (l : List Nat) : List Nat :=
  l ++ List.replicate ((16 - l.length % 16) % 16) 0

/-- `inc32`: increment the last 32 bits of a counter block. -/
def inc32 (blk : List Nat) : List Nat :=
  blk.take 12 ++ natToBeBytes 4 ((beBytesToNat (blk.drop 12) + 1) % 2 ^ 32)

/-- The first `n` counter blocks starting at `icb`. -/
def ctrBlocks (key : List Nat) (icb : List Nat) : Nat → List Nat
  | 0 => []
  | n + 1 => natToBeBytes 16 (aesBlockNat key icb) ++ ctrBlocks key (inc32 icb) n

/-- The first `n` keystream bytes of `GCTR` starting at counter `icb`. -/
def keystream (key icb : List Nat) (n : Nat) : List Nat :=
  (ctrBlocks key icb ((n + 15) / 16)).take n

/-- `GCTR`: xor the data with the keystream. -/
def gctr (key icb data : List Nat) : List Nat :=
  List.zipWith Nat.xor data (keystream key icb data.length)

/-- The pre-counter block `J0` for a 96-bit IV. -/
def j0 (iv : List Nat) : List Nat :=
  iv ++ [0, 0, 0, 1]

/-- The 16-byte GCM authentication tag over ciphertext `c` (no additional
authenticated data, 128-bit tag, 96-bit IV), per SP 800-38D. -/
def gcmTag (key iv c : List Nat) : List Nat :=
  let h := aesBlockNat key (List.replicate 16 0)
  let s := ghashBlocks h ((chunk16 (padTo16 c)).map beBytesToNat ++ [8 * c.length])
  natToBeBytes 16 (aesBlockNat key (j0 iv) ^^^ s)

/-- AES-128-GCM encryption: ciphertext followed by the 16-byte tag, as
produced by `crypto.subtle.encrypt({name:'AES-GCM', iv}, …)`. -/
def gcmEncrypt (key iv pt : List Nat) : List Nat :=
  let c := gctr key (inc32 (j0 iv)) pt
  c ++ gcmTag key iv c

/-- AES-128-GCM decryption: split off the trailing 16-byte tag, verify it,
and return the plaintext; `none` models the `OperationError` rejection. -/
def gcmDecrypt (key iv data : List Nat) : Option (List Nat) :=
  if data.length < 16 then none
  else
    let c := data.take (data.length - 16)
    let tag := data.drop (data.length - 16)
    if gcmTag key iv c = tag then some (gctr key (inc32 (j0 iv)) c)
    else none

theorem natToBeBytes_length (k : Nat) : ∀ n, (natToBeBytes k n).length = k := by
  induction k with
  | zero => intro n; rfl
  | succ k ih => intro n; simp [natToBeBytes, ih]

theorem natToBeBytes_lt (k : Nat) : ∀ n, ∀ b ∈ natToBeBytes k n, b < 256 := by
  induction k with
  | zero => intro n b hb; simp [natToBeBytes] at hb
  | succ k ih =>
    intro n b hb
    simp only [natToBeBytes, List.mem_append, List.mem_singleton] at hb
    rcases hb with h | h
    · exact ih _ b h
    · rw [h]; exact Nat.mod_lt _ (by omega)

theorem ctrBlocks_length (key : List Nat) (n : Nat) :
    ∀ icb, (ctrBlocks key icb n).length = 16 * n := by
  induction n with
  | zero => intro icb; rfl
  | succ n ih =>
    intro icb
    simp only [ctrBlocks, List.length_append, natToBeBytes_length, ih]
    omega

theorem ctrBlocks_lt (key : List Nat) (n : Nat) :
    ∀ icb, ∀ b ∈ ctrBlocks key icb n, b < 256 := by
  induction n with
  | zero => intro icb b hb; simp [ctrBlocks] at hb
  | succ n ih =>
    intro icb b hb
    simp only [ctrBlocks, List.mem_append] at hb
    rcases hb with h | h
    · exact natToBeBytes_lt 16 _ b h
    · exact ih _ b h

theorem keystream_length (key icb : List Nat) (n : Nat) :
    (keystream key icb n).length = n := by
  simp only [keystream, List.length_take, ctrBlocks_length]
  omega

theorem keystream_lt (key icb : List Nat) (n : Nat) :
    ∀ b ∈ keystream key icb n, b < 256 := by
  intro b hb
  exact ctrBlocks_lt key _ icb b (List.mem_of_mem_take hb)

theorem gctr_length (key icb data : List Nat) :
    (gctr key icb data).length = data.length := by
  simp [gctr, List.length_zipWith, keystream_length]

theorem zipWith_xor_lt (xs ys : List Nat)
    (hx : ∀ b ∈ xs, b < 256) (hy : ∀ b ∈ ys, b < 256) :
    ∀ b ∈ List.zipWith Nat.xor xs ys, b < 256 := by
  induction xs generalizing ys with
  | nil => intro b hb; simp at hb
  | cons x xs ih =>
    intro b hb
    cases ys with
    | nil => simp at hb
    | cons y ys =>
      simp only [List.zipWith_cons_cons, List.mem_cons] at hb
      rcases hb with h | h
      · rw [h]
        have h1 : x < 2 ^ 8 := hx x (List.mem_cons_self _ _)
        have h2 : y < 2 ^ 8 := hy y (List.mem_cons_self _ _)
        exact Nat.xor_lt_two_pow h1 h2
      · exact ih _ (fun b hb => hx b (List.mem_cons_of_mem _ hb))
          (fun b hb => hy b (List.mem_cons_of_mem _ hb)) b h

theorem gctr_lt (key icb data : List Nat) (hd : ∀ b ∈ data, b < 256) :
    ∀ b ∈ gctr key icb data, b < 256 :=
  zipWith_xor_lt data _ hd (keystream_lt key icb data.length)

theorem zipWith_xor_xor (xs : List Nat) :
    ∀ ys : List Nat, xs.length ≤ ys.length →
      List.zipWith Nat.xor (List.zipWith Nat.xor xs ys) ys = xs := by
  induction xs with
  | nil => intro ys h; simp
  | cons x xs ih =>
    intro ys h
    cases ys with
    | nil => simp at h
    | cons y ys =>
      simp only [List.zipWith_cons_cons]
      refine congrArg₂ (· :: ·) ?_ (ih ys (by simpa using h))
      show x ^^^ y ^^^ y = x
      rw [Nat.xor_assoc, Nat.xor_self, Nat.xor_zero]

theorem gctr_gctr (key icb data : List Nat) :
    gctr key icb (gctr key icb data) = data := by
  unfold gctr
  rw [List.length_zipWith, keystream_length, Nat.min_self]
  exact zipWith_xor_xor data _ (by rw [keystream_length])

theorem gcmTag_length (key iv c : List Nat) : (gcmTag key iv c).length = 16 :=
  natToBeBytes_length 16 _

theorem gcmTag_lt (key iv c : List Nat) : ∀ b ∈ gcmTag key iv c, b < 256 :=
  natToBeBytes_lt 16 _

theorem gcmDecrypt_gcmEncrypt (key iv pt : List Nat) :
    gcmDecrypt key iv (gcmEncrypt key iv pt) = some pt := by
  unfold gcmDecrypt gcmEncrypt
  have hlen : (gctr key (inc32 (j0 iv)) pt ++
      gcmTag key iv (gctr key (inc32 (j0 iv)) pt)).length =
      (gctr key (inc32 (j0 iv)) pt).length + 16 := by
    rw [List.length_append, gcmTag_length]
  rw [hlen]
  rw [if_neg (by omega)]
  have htake : (gctr key (inc32 (j0 iv)) pt ++
      gcmTag key iv (gctr key (inc32 (j0 iv)) pt)).take
        ((gctr key (inc32 (j0 iv)) pt).length + 16 - 16) =
      gctr key (inc32 (j0 iv)) pt := by
    rw [Nat.add_sub_cancel]
    exact List.take_left _ _
  have hdrop : (gctr key (inc32 (j0 iv)) pt ++
      gcmTag key iv (gctr key (inc32 (j0 iv)) pt)).drop
        ((gctr key (inc32 (j0 iv)) pt).length + 16 - 16) =
      gcmTag key iv (gctr key (inc32 (j0 iv)) pt) := by
    rw [Nat.add_sub_cancel]
    exact List.drop_left _ _
  rw [htake, hdrop, if_pos rfl, gctr_gctr]

theorem gcmEncrypt_lt (key iv pt : List Nat) (hpt : ∀ b ∈ pt, b < 256) :
    ∀ b ∈ gcmEncrypt key iv pt, b < 256 := by
  intro b hb
  unfold gcmEncrypt at hb
  rcases List.mem_append.mp hb with h | h
  · exact gctr_lt key _ pt hpt b h
  · exact gcmTag_lt key iv _ b h

/-- The base64 alphabet used by `btoa` / `atob`. -/
def b64Alphabet : List Char :=
  "ABCDEFGHIJKLMNOPQRSTUVWXYZabcdefghijklmnopqrstuvwxyz0123456789+/".data

/-- Character for a sextet value. -/
def b64Char (n : Nat) : Char :=
  b64Alphabet.getD n '='

/-- Sextet value of an alphabet character (`none` for `=` and strangers). -/
def b64Val (c : Char) : Option Nat :=
  b64Alphabet.indexOf? c

/-- `btoa` on a byte list: canonical padded base64. -/
def base64Encode : List Nat → List Char
  | [] => []
  | [a] => [b64Char (a / 4), b64Char (a % 4 * 16), '=', '=']
  | [a, b] => [b64Char (a / 4), b64Char (a % 4 * 16 + b / 16), b64Char (b % 16 * 4), '=']
  | a :: b :: c :: rest =>
    b64Char (a / 4) :: b64Char (a % 4 * 16 + b / 16) ::
      b64Char (b % 16 * 4 + c / 64) :: b64Char (c % 64) :: base64Encode rest

/-- `atob` on canonical padded base64; `none` models the
`InvalidCharacterError` rejection. -/
def base64Decode : List Char → Option (List Nat)
  | [] => some []
  | c1 :: c2 :: c3 :: c4 :: rest =>
    match b64Val c1, b64Val c2 with
    | some v1, some v2 =>
      if c3 = '=' then
        if c4 = '=' ∧ rest = [] then some [v1 * 4 + v2 / 16] else none
      else
        match b64Val c3 with
        | some v3 =>
          if c4 = '=' then
            if rest = [] then some [v1 * 4 + v2 / 16, v2 % 16 * 16 + v3 / 4]
            else none
          else
            match b64Val c4 with
            | some v4 =>
              (base64Decode rest).map
                (fun bs => (v1 * 4 + v2 / 16) :: (v2 % 16 * 16 + v3 / 4) ::
                  (v3 % 4 * 64 + v4) :: bs)
            | none => none
        | none => none
    | _, _ => none
  | _ => none

theorem b64Val_b64Char : ∀ n, n < 64 → b64Val (b64Char n) = some n := by
  decide

theorem b64Char_ne_pad : ∀ n, n < 64 → ¬(b64Char n = '=') := by
  decide

theorem base64_roundtrip (bs : List Nat) (hb : ∀ b ∈ bs, b < 256) :
    base64Decode (base64Encode bs) = some bs := by
  induction bs using base64Encode.induct with
  | case1 => rfl
  | case2 a =>
    have ha : a < 256 := hb a (by simp)
    have h1 : a / 4 < 64 := by omega
    have h2 : a % 4 * 16 < 64 := by omega
    simp only [base64Encode, base64Decode, b64Val_b64Char _ h1, b64Val_b64Char _ h2]
    simp
    omega
  | case3 a b =>
    have ha : a < 256 := hb a (by simp)
    have hbb : b < 256 := hb b (by simp)
    have h1 : a / 4 < 64 := by omega
    have h2 : a % 4 * 16 + b / 16 < 64 := by omega
    have h3 : b % 16 * 4 < 64 := by omega
    simp only [base64Encode, base64Decode, b64Val_b64Char _ h1, b64Val_b64Char _ h2,
      b64Val_b64Char _ h3]
    simp [b64Char_ne_pad _ h3]
    omega
  | case4 a b c rest ih =>
    have ha : a < 256 := hb a (by simp)
    have hbb : b < 256 := hb b (by simp)
    have hc : c < 256 := hb c (by simp)
    have hrest : ∀ x ∈ rest, x < 256 := fun x hx => hb x (by simp [hx])
    have h1 : a / 4 < 64 := by omega
    have h2 : a % 4 * 16 + b / 16 < 64 := by omega
    have h3 : b % 16 * 4 + c / 64 < 64 := by omega
    have h4 : c % 64 < 64 := by omega
    simp only [base64Encode, base64Decode, b64Val_b64Char _ h1, b64Val_b64Char _ h2,
      b64Val_b64Char _ h3, b64Val_b64Char _ h4]
    simp [b64Char_ne_pad _ h3, b64Char_ne_pad _ h4, ih hrest]
    omega

/-- UTF-8 bytes of one scalar value, as `TextEncoder` emits them. -/
def utf8EncodeChar (c : Char) : List Nat :=
  let n := c.toNat
  if n < 0x80 then [n]
  else if n < 0x800 then [0xC0 + n / 64, 0x80 + n % 64]
  else if n < 0x10000 then [0xE0 + n / 4096, 0x80 + n / 64 % 64, 0x80 + n % 64]
  else [0xF0 + n / 262144, 0x80 + n / 4096 % 64, 0x80 + n / 64 % 64, 0x80 + n % 64]

/-- `TextEncoder.encode`. -/
def utf8Encode (s : List Char) : List Nat :=
  s.flatMap utf8EncodeChar

/-- Decode the tail of a 2-byte UTF-8 sequence headed by `b`. -/
def utf8Step2 (b : Nat) : List Nat → Option (Char × List Nat)
  | b2 :: rest2 =>
    if 0x80 ≤ b2 ∧ b2 < 0xC0 then
      let n := (b - 0xC0) * 64 + (b2 - 0x80)
      if 0x80 ≤ n then some (Char.ofNat n, rest2) else none
    else none
  | _ => none

/-- Decode the tail of a 3-byte UTF-8 sequence headed by `b`. -/
def utf8Step3 (b : Nat) : List Nat → Option (Char × List Nat)
  | b2 :: b3 :: rest2 =>
    if (0x80 ≤ b2 ∧ b2 < 0xC0) ∧ (0x80 ≤ b3 ∧ b3 < 0xC0) then
      let n := (b - 0xE0) * 4096 + (b2 - 0x80) * 64 + (b3 - 0x80)
      if 0x800 ≤ n ∧ (n < 0xD800 ∨ 0xE000 ≤ n) then some (Char.ofNat n, rest2)
      else none
    else none
  | _ => none

/-- Decode the tail of a 4-byte UTF-8 sequence headed by `b`. -/
def utf8Step4 (b : Nat) : List Nat → Option (Char × List Nat)
  | b2 :: b3 :: b4 :: rest2 =>
    if (0x80 ≤ b2 ∧ b2 < 0xC0) ∧ (0x80 ≤ b3 ∧ b3 < 0xC0) ∧
        (0x80 ≤ b4 ∧ b4 < 0xC0) then
      let n := (b - 0xF0) * 262144 + (b2 - 0x80) * 4096 +
        (b3 - 0x80) * 64 + (b4 - 0x80)
      if 0x10000 ≤ n ∧ n < 0x110000 then some (Char.ofNat n, rest2) else none
    else none
  | _ => none

/-- Decode one UTF-8 scalar from the front of the input. -/
def utf8DecodeStep : List Nat → Option (Char × List Nat)
  | [] => none
  | b :: rest =>
    if b < 0x80 then some (Char.ofNat b, rest)
    else if b < 0xC0 then none
    else if b < 0xE0 then utf8Step2 b rest
    else if b < 0xF0 then utf8Step3 b rest
    else if b < 0xF8 then utf8Step4 b rest
    else none

/-- Fuel-indexed strict UTF-8 decoding loop. -/
def utf8DecodeLoop : Nat → List Nat → Option (List Char)
  | _, [] => some []
  | 0, _ :: _ => none
  | fuel + 1, b :: rest =>
    match utf8DecodeStep (b :: rest) with
    | some (c, rest2) => (utf8DecodeLoop fuel rest2).map (fun s => c :: s)
    | none => none

/-- Strict UTF-8 decoding (`none` on malformed input). -/
def utf8Decode (l : List Nat) : Option (List Char) :=
  utf8DecodeLoop l.length l

theorem utf8EncodeChar_length_pos (c : Char) : 1 ≤ (utf8EncodeChar c).length := by
  unfold utf8EncodeChar
  by_cases h1 : c.toNat < 0x80
  · simp [h1]
  · by_cases h2 : c.toNat < 0x800
    · simp [h1, h2]
    · by_cases h3 : c.toNat < 0x10000
      · simp [h1, h2, h3]
      · simp [h1, h2, h3]

theorem utf8DecodeStep_encodeChar (c : Char) (rest : List Nat) :
    utf8DecodeStep (utf8EncodeChar c ++ rest) = some (c, rest) := by
  have hval : c.toNat < 0xD800 ∨ (0xE000 ≤ c.toNat ∧ c.toNat < 0x110000) := c.valid
  have hofn : Char.ofNat c.toNat = c := Char.ofNat_toNat c
  by_cases h1 : c.toNat < 0x80
  · simp only [utf8EncodeChar, if_pos h1, List.cons_append, List.nil_append]
    simp only [utf8DecodeStep, if_pos h1, hofn]
  · by_cases h2 : c.toNat < 0x800
    · simp only [utf8EncodeChar, if_neg h1, if_pos h2, List.cons_append,
        List.nil_append]
      simp only [utf8DecodeStep,
        if_neg (by omega : ¬(0xC0 + c.toNat / 64 < 0x80)),
        if_neg (by omega : ¬(0xC0 + c.toNat / 64 < 0xC0)),
        if_pos (by omega : 0xC0 + c.toNat / 64 < 0xE0)]
      simp only [utf8Step2,
        if_pos (by omega : 0x80 ≤ 0x80 + c.toNat % 64 ∧ 0x80 + c.toNat % 64 < 0xC0)]
      rw [if_pos (by omega)]
      have hn : (0xC0 + c.toNat / 64 - 0xC0) * 64 + (0x80 + c.toNat % 64 - 0x80) =
          c.toNat := by omega
      rw [hn, hofn]
    · by_cases h3 : c.toNat < 0x10000
      · simp only [utf8EncodeChar, if_neg h1, if_neg h2, if_pos h3,
          List.cons_append, List.nil_append]
        simp only [utf8DecodeStep,
          if_neg (by omega : ¬(0xE0 + c.toNat / 4096 < 0x80)),
          if_neg (by omega : ¬(0xE0 + c.toNat / 4096 < 0xC0)),
          if_neg (by omega : ¬(0xE0 + c.toNat / 4096 < 0xE0)),
          if_pos (by omega : 0xE0 + c.toNat / 4096 < 0xF0)]
        simp only [utf8Step3,
          if_pos (by omega :
            (0x80 ≤ 0x80 + c.toNat / 64 % 64 ∧ 0x80 + c.toNat / 64 % 64 < 0xC0) ∧
              (0x80 ≤ 0x80 + c.toNat % 64 ∧ 0x80 + c.toNat % 64 < 0xC0))]
        have hn : (0xE0 + c.toNat / 4096 - 0xE0) * 4096 +
            (0x80 + c.toNat / 64 % 64 - 0x80) * 64 +
            (0x80 + c.toNat % 64 - 0x80) = c.toNat := by omega
        rw [hn, if_pos (by omega), hofn]
      · have hup : c.toNat < 0x110000 := by omega
        simp only [utf8EncodeChar, if_neg h1, if_neg h2, if_neg h3,
          List.cons_append, List.nil_append]
        simp only [utf8DecodeStep,
          if_neg (by omega : ¬(0xF0 + c.toNat / 262144 < 0x80)),
          if_neg (by omega : ¬(0xF0 + c.toNat / 262144 < 0xC0)),
          if_neg (by omega : ¬(0xF0 + c.toNat / 262144 < 0xE0)),
          if_neg (by omega : ¬(0xF0 + c.toNat / 262144 < 0xF0)),
          if_pos (by omega : 0xF0 + c.toNat / 262144 < 0xF8)]
        simp only [utf8Step4,
          if_pos (by omega :
            (0x80 ≤ 0x80 + c.toNat / 4096 % 64 ∧ 0x80 + c.toNat / 4096 % 64 < 0xC0) ∧
              (0x80 ≤ 0x80 + c.toNat / 64 % 64 ∧ 0x80 + c.toNat / 64 % 64 < 0xC0) ∧
                (0x80 ≤ 0x80 + c.toNat % 64 ∧ 0x80 + c.toNat % 64 < 0xC0))]
        have hn : (0xF0 + c.toNat / 262144 - 0xF0) * 262144 +
            (0x80 + c.toNat / 4096 % 64 - 0x80) * 4096 +
            (0x80 + c.toNat / 64 % 64 - 0x80) * 64 +
            (0x80 + c.toNat % 64 - 0x80) = c.toNat := by omega
        rw [hn, if_pos (by omega), hofn]

theorem utf8DecodeLoop_encode (s : List Char) :
    ∀ fuel, (utf8Encode s).length ≤ fuel →
      utf8DecodeLoop fuel (utf8Encode s) = some s := by
  induction s with
  | nil =>
    intro fuel h
    show utf8DecodeLoop fuel [] = some []
    cases fuel <;> rfl
  | cons c cs ih =>
    intro fuel h
    have hlen1 : 1 ≤ (utf8EncodeChar c).length := utf8EncodeChar_length_pos c
    have hlen : (utf8Encode (c :: cs)).length =
        (utf8EncodeChar c).length + (utf8Encode cs).length := by
      show (utf8EncodeChar c ++ utf8Encode cs).length = _
      exact List.length_append _ _
    cases fuel with
    | zero => omega
    | succ f =>
      obtain ⟨b, tl, hbtl⟩ : ∃ b tl, utf8EncodeChar c = b :: tl := by
        cases hE : utf8EncodeChar c with
        | nil => rw [hE] at hlen1; simp at hlen1
        | cons b tl => exact ⟨b, tl, rfl⟩
      have hstep := utf8DecodeStep_encodeChar c (utf8Encode cs)
      show utf8DecodeLoop (f + 1) (utf8EncodeChar c ++ utf8Encode cs) = some (c :: cs)
      rw [hbtl, List.cons_append] at hstep ⊢
      simp only [utf8DecodeLoop, hstep]
      rw [ih f (by omega)]
      rfl

theorem utf8_roundtrip (s : List Char) :
    utf8Decode (utf8Encode s) = some s :=
  utf8DecodeLoop_encode s _ (Nat.le_refl _)

theorem utf8Encode_lt (s : List Char) : ∀ b ∈ utf8Encode s, b < 256 := by
  intro b hb
  simp only [utf8Encode, List.mem_flatMap] at hb
  obtain ⟨c, _, hbc⟩ := hb
  have hval : c.toNat < 0xD800 ∨ (0xE000 ≤ c.toNat ∧ c.toNat < 0x110000) := c.valid
  unfold utf8EncodeChar at hbc
  by_cases h1 : c.toNat < 0x80
  · simp only [if_pos h1, List.mem_singleton] at hbc; omega
  · by_cases h2 : c.toNat < 0x800
    · simp only [if_neg h1, if_pos h2, List.mem_cons, List.not_mem_nil,
        or_false] at hbc
      rcases hbc with h | h <;> omega
    · by_cases h3 : c.toNat < 0x10000
      · simp only [if_neg h1, if_neg h2, if_pos h3, List.mem_cons,
          List.not_mem_nil, or_false] at hbc
        rcases hbc with h | h | h <;> omega
      · simp only [if_neg h1, if_neg h2, if_neg h3, List.mem_cons,
          List.not_mem_nil, or_false] at hbc
        rcases hbc with h | h | h | h <;> omega

/-- Value of one hex digit, as `parseInt(･, 16)` reads it (case-insensitive). -/
def hexVal (c : Char) : Nat :=
  if '0' ≤ c ∧ c ≤ '9' then c.toNat - '0'.toNat
  else if 'a' ≤ c ∧ c ≤ 'f' then c.toNat - 'a'.toNat + 10
  else if 'A' ≤ c ∧ c ≤ 'F' then c.toNat - 'A'.toNat + 10
  else 0

/-- `hexToKey`: split the hex key into chunks of two (`.match(/.{1,2}/g)`) and
parse each chunk as a byte. -/
def hexToKey : List Char → List Nat
  | [] => []
  | [a] => [hexVal a]
  | a :: b :: rest => (16 * hexVal a + hexVal b) :: hexToKey rest

/-- One character of the `/^[0-9a-f]{32}$/i` class. -/
def isHexDigitCI (c : Char) : Bool :=
  ('0' ≤ c && c ≤ '9') || ('a' ≤ c && c ≤ 'f') || ('A' ≤ c && c ≤ 'F')

/-- `isValidEncryptionKey`: exactly 32 hex characters, case-insensitive. -/
def isValidEncryptionKey (key : List Char) : Bool :=
  key.length == 32 && key.all isHexDigitCI

/-- JSON values, the payloads of `JSON.stringify` / `JSON.parse`.  Numbers are
modelled as integers: JavaScript number formatting is floating-point and is
outside the embedding, and the integer fragment round-trips exactly. -/
inductive Json where
  | null
  | bool (b : Bool)
  | num (n : Int)
  | str (s : List Char)
  | arr (elems : List Json)
  | obj (members : List (List Char × Json))
  deriving Repr

/-- `JSON.stringify` escaping of one string character. -/
def escapeChar (c : Char) : List Char :=
  if c = '"' then ['\\', '"']
  else if c = '\\' then ['\\', '\\']
  else if c = Char.ofNat 8 then ['\\', 'b']
  else if c = Char.ofNat 12 then ['\\', 'f']
  else if c = Char.ofNat 10 then ['\\', 'n']
  else if c = Char.ofNat 13 then ['\\', 'r']
  else if c = Char.ofNat 9 then ['\\', 't']
  else if c.toNat < 32 then
    ['\\', 'u', '0', '0',
     Backend.hexDigitChar (c.toNat / 16), Backend.hexDigitChar (c.toNat % 16)]
  else [c]

/-- Decimal digits of a natural number. -/
def natToChars (n : Nat) : List Char :=
  if h : n < 10 then [Char.ofNat (48 + n)]
  else natToChars (n / 10) ++ [Char.ofNat (48 + n % 10)]
termination_by n
decreasing_by omega

/-- Decimal representation of an integer, as `JSON.stringify` prints one. -/
def intToChars (i : Int) : List Char :=
  if i < 0 then '-' :: natToChars i.natAbs else natToChars i.toNat

/-- A JSON string literal: quote, escaped characters, quote. -/
def quoteString (s : List Char) : List Char :=
  '"' :: s.flatMap escapeChar ++ ['"']

mutual

/-- `JSON.stringify` (no indentation argument: no whitespace). -/
def jsonStringify : Json → List Char
  | .null => ['n'] ++ ['u', 'l', 'l']
  | .bool true => ['t'] ++ ['r', 'u', 'e']
  | .bool false => ['f'] ++ ['a', 'l', 's', 'e']
  | .num n => intToChars n
  | .str s => quoteString s
  | .arr es => '[' :: stringifyElems es ++ [']']
  | .obj ms => Char.ofNat 123 :: stringifyMembers ms ++ [Char.ofNat 125]

/-- Comma-separated serialized array elements. -/
def stringifyElems : List Json → List Char
  | [] => []
  | [v] => jsonStringify v
  | v :: w :: rest => jsonStringify v ++ ',' :: stringifyElems (w :: rest)

/-- Comma-separated serialized object members (insertion order). -/
def stringifyMembers : List (List Char × Json) → List Char
  | [] => []
  | [(k, v)] => quoteString k ++ ':' :: jsonStringify v
  | (k, v) :: m :: rest =>
    (quoteString k ++ ':' :: jsonStringify v) ++ ',' :: stringifyMembers (m :: rest)

end

/-- Decimal digit test. -/
def isDecDigit (c : Char) : Bool :=
  '0' ≤ c && c ≤ '9'

/-- Value of a list of decimal digits. -/
def digitsToNat (ds : List Char) : Nat :=
  ds.foldl (fun a c => 10 * a + (c.toNat - 48)) 0

/-- True when the input does not continue a number token (no digit, decimal
point or exponent marker follows). -/
def numBoundary : List Char → Bool
  | [] => true
  | c :: _ => !(isDecDigit c || c = '.' || c = 'e' || c = 'E')

/-- Parse a natural-number token (JSON integer grammar: no leading zero). -/
def parseNatTok (l : List Char) : Option (Nat × List Char) :=
  let ds := l.takeWhile isDecDigit
  let rest := l.dropWhile isDecDigit
  if ds.isEmpty then none
  else if ds.head? = some '0' ∧ ds.length ≠ 1 then none
  else if numBoundary rest then some (digitsToNat ds, rest) else none

/-- Parse an integer token with optional leading minus. -/
def parseIntTok : List Char → Option (Int × List Char)
  | [] => none
  | c :: rest =>
    if c = '-' then (parseNatTok rest).map (fun p => (-(p.1 : Int), p.2))
    else (parseNatTok (c :: rest)).map (fun p => ((p.1 : Int), p.2))

/-- Four hex digits of a `\u` escape. -/
def parseHex4 (h1 h2 h3 h4 : Char) : Option Nat :=
  if isHexDigitCI h1 && isHexDigitCI h2 && isHexDigitCI h3 && isHexDigitCI h4 then
    some (hexVal h1 * 4096 + hexVal h2 * 256 + hexVal h3 * 16 + hexVal h4)
  else none

/-- The character named by a single-character escape. -/
def unescapeChar (c : Char) : Option Char :=
  if c = '"' then some '"'
  else if c = '\\' then some '\\'
  else if c = '/' then some '/'
  else if c = 'b' then some (Char.ofNat 8)
  else if c = 'f' then some (Char.ofNat 12)
  else if c = 'n' then some (Char.ofNat 10)
  else if c = 'r' then some (Char.ofNat 13)
  else if c = 't' then some (Char.ofNat 9)
  else none

/-- Parse one escape sequence after the backslash (surrogate-pair escapes are
outside the scalar model and rejected). -/
def parseEscape : List Char → Option (Char × List Char)
  | [] => none
  | e :: rest2 =>
    if e = 'u' then
      match rest2 with
      | h1 :: h2 :: h3 :: h4 :: rest3 =>
        match parseHex4 h1 h2 h3 h4 with
        | some n =>
          if n < 0xD800 ∨ 0xE000 ≤ n then some (Char.ofNat n, rest3) else none
        | none => none
      | _ => none
    else
      match unescapeChar e with
      | some ch => some (ch, rest2)
      | none => none

/-- Fuel-indexed loop for the body of a JSON string literal, after the opening
quote, up to and including the closing quote. -/
def parseStringLoop : Nat → List Char → Option (List Char × List Char)
  | _, [] => none
  | 0, _ :: _ => none
  | fuel + 1, c :: rest =>
    if c = '"' then some ([], rest)
    else if c = '\\' then
      match parseEscape rest with
      | some (ch, rest2) =>
        (parseStringLoop fuel rest2).map (fun p => (ch :: p.1, p.2))
      | none => none
    else if c.toNat < 32 then none
    else (parseStringLoop fuel rest).map (fun p => (c :: p.1, p.2))

/-- Parse the body of a JSON string literal after the opening quote. -/
def parseStringBody (l : List Char) : Option (List Char × List Char) :=
  parseStringLoop l.length l

/-- Expect a fixed sequence of characters, returning what follows. -/
def expectChars : List Char → List Char → Option (List Char)
  | [], rest => some rest
  | e :: es, c :: rest => if c = e then expectChars es rest else none
  | _ :: _, [] => none

/-- Expect a closing delimiter after a parsed batch. -/
def expectClose {α : Type} (close : Char) :
    Option (α × List Char) → Option (α × List Char)
  | some (a, e :: r2) => if e = close then some (a, r2) else none
  | _ => none

mutual

/-- Fuel-indexed recursive-descent parser for one JSON value (the
whitespace-free grammar `JSON.stringify` emits; integer numbers). -/
def parseValue : Nat → List Char → Option (Json × List Char)
  | 0, _ => none
  | fuel + 1, input =>
    match input with
    | [] => none
    | c :: rest =>
      if c = 'n' then (expectChars ['u', 'l', 'l'] rest).map (fun r => (Json.null, r))
      else if c = 't' then
        (expectChars ['r', 'u', 'e'] rest).map (fun r => (Json.bool true, r))
      else if c = 'f' then
        (expectChars ['a', 'l', 's', 'e'] rest).map (fun r => (Json.bool false, r))
      else if c = '"' then (parseStringBody rest).map (fun p => (Json.str p.1, p.2))
      else if c = '[' then
        match rest with
        | [] => none
        | d :: r =>
          if d = ']' then some (.arr [], r)
          else
            (expectClose ']' (parseElems fuel (d :: r))).map
              (fun p => (Json.arr p.1, p.2))
      else if c = Char.ofNat 123 then
        match rest with
        | [] => none
        | d :: r =>
          if d = Char.ofNat 125 then some (.obj [], r)
          else
            (expectClose (Char.ofNat 125) (parseMembers fuel (d :: r))).map
              (fun p => (Json.obj p.1, p.2))
      else
        (parseIntTok (c :: rest)).map (fun p => (Json.num p.1, p.2))

/-- One or more comma-separated values. -/
def parseElems : Nat → List Char → Option (List Json × List Char)
  | 0, _ => none
  | fuel + 1, input =>
    match parseValue fuel input with
    | some (v, r) =>
      match r with
      | [] => some ([v], [])
      | d :: r2 =>
        if d = ',' then
          match parseElems fuel r2 with
          | some (vs, r3) => some (v :: vs, r3)
          | none => none
        else some ([v], d :: r2)
    | none => none

/-- One `"key":value` member. -/
def parseMember : Nat → List Char → Option ((List Char × Json) × List Char)
  | 0, _ => none
  | fuel + 1, input =>
    match input with
    | [] => none
    | c :: rest =>
      if c = '"' then
        match parseStringBody rest with
        | some (k, r1) =>
          match r1 with
          | [] => none
          | d :: r2 =>
            if d = ':' then (parseValue fuel r2).map (fun p => ((k, p.1), p.2))
            else none
        | none => none
      else none

/-- One or more comma-separated members. -/
def parseMembers : Nat → List Char →
    Option (List (List Char × Json) × List Char)
  | 0, _ => none
  | fuel + 1, input =>
    match parseMember fuel input with
    | some (m, r) =>
      match r with
      | [] => some ([m], [])
      | d :: r2 =>
        if d = ',' then
          match parseMembers fuel r2 with
          | some (ms, r3) => some (m :: ms, r3)
          | none => none
        else some ([m], d :: r2)
    | none => none

end

theorem natToChars_head (n : Nat) :
    ∃ c tl, natToChars n = c :: tl ∧
      c ∈ ['0', '1', '2', '3', '4', Char.ofNat 53, '6', '7', '8', '9'] := by
  induction n using natToChars.induct with
  | case1 n h =>
    refine ⟨Char.ofNat (48 + n), [], by rw [natToChars]; simp [h], ?_⟩
    interval_cases n <;> decide
  | case2 n h ih =>
    obtain ⟨c, tl, hc, hmem⟩ := ih
    exact ⟨c, tl ++ [Char.ofNat (48 + n % 10)],
      by rw [natToChars]; simp [h, hc], hmem⟩

theorem natToChars_ne_nil (n : Nat) : natToChars n ≠ [] := by
  obtain ⟨c, tl, hc, _⟩ := natToChars_head n
  simp [hc]

theorem natToChars_digits (n : Nat) : ∀ c ∈ natToChars n, isDecDigit c = true := by
  induction n using natToChars.induct with
  | case1 n h =>
    intro c hc
    rw [natToChars] at hc
    simp only [dif_pos h, List.mem_singleton] at hc
    subst hc
    interval_cases n <;> decide
  | case2 n h ih =>
    intro c hc
    rw [natToChars] at hc
    simp only [dif_neg h, List.mem_append, List.mem_singleton] at hc
    rcases hc with hc | hc
    · exact ih c hc
    · subst hc
      obtain ⟨m, hm, hmeq⟩ : ∃ m, m < 10 ∧ n % 10 = m :=
        ⟨n % 10, Nat.mod_lt _ (by omega), rfl⟩
      rw [hmeq]
      interval_cases m <;> decide

theorem toNat_digitChar : ∀ n, n < 10 → (Char.ofNat (48 + n)).toNat = 48 + n := by
  decide

theorem digitsToNat_natToChars (n : Nat) : digitsToNat (natToChars n) = n := by
  induction n using natToChars.induct with
  | case1 n h =>
    rw [natToChars]
    simp only [dif_pos h, digitsToNat, List.foldl_cons, List.foldl_nil]
    rw [toNat_digitChar n h]
    omega
  | case2 n h ih =>
    rw [natToChars]
    simp only [dif_neg h]
    show digitsToNat (natToChars (n / 10) ++ [Char.ofNat (48 + n % 10)]) = n
    simp only [digitsToNat, List.foldl_append, List.foldl_cons, List.foldl_nil]
    have hfold : (natToChars (n / 10)).foldl
        (fun a c => 10 * a + (c.toNat - 48)) 0 = n / 10 := ih
    rw [hfold, toNat_digitChar _ (Nat.mod_lt _ (by omega))]
    omega

theorem natToChars_head_zero (n : Nat) :
    (natToChars n).head? = some '0' → n = 0 := by
  induction n using natToChars.induct with
  | case1 n h =>
    intro hc
    rw [natToChars] at hc
    simp only [dif_pos h, List.head?_cons, Option.some.injEq] at hc
    have h2 := congrArg Char.toNat hc
    rw [toNat_digitChar n h] at h2
    have h3 : ('0' : Char).toNat = 48 := by decide
    rw [h3] at h2
    omega
  | case2 n h ih =>
    intro hc
    rw [natToChars] at hc
    obtain ⟨c, tl, hctl, _⟩ := natToChars_head (n / 10)
    simp only [dif_neg h, hctl, List.cons_append, List.head?_cons] at hc
    have := ih (by rw [hctl]; simpa using hc)
    omega

theorem takeWhile_append_all (p : Char → Bool) (xs : List Char) :
    ∀ ys, (∀ x ∈ xs, p x = true) → (∀ c, ys.head? = some c → p c = false) →
      (xs ++ ys).takeWhile p = xs ∧ (xs ++ ys).dropWhile p = ys := by
  induction xs with
  | nil =>
    intro ys hall hhead
    constructor
    · cases ys with
      | nil => rfl
      | cons y ys2 => simp [List.takeWhile_cons, hhead y rfl]
    · cases ys with
      | nil => rfl
      | cons y ys2 => simp [List.dropWhile_cons, hhead y rfl]
  | cons x xs ih =>
    intro ys hall hhead
    have hx : p x = true := hall x (List.mem_cons_self _ _)
    have hrec := ih ys (fun a ha => hall a (List.mem_cons_of_mem _ ha)) hhead
    constructor
    · simp [List.takeWhile_cons, hx, hrec.1]
    · simp [List.dropWhile_cons, hx, hrec.2]

theorem parseNatTok_natToChars (n : Nat) (rest : List Char)
    (hrest : numBoundary rest = true) :
    parseNatTok (natToChars n ++ rest) = some (n, rest) := by
  have hhead : ∀ c, rest.head? = some c → isDecDigit c = false := by
    intro c hc
    cases rest with
    | nil => simp at hc
    | cons r rs =>
      simp only [List.head?_cons, Option.some.injEq] at hc
      subst hc
      cases hdig : isDecDigit r with
      | false => rfl
      | true =>
        simp only [numBoundary, hdig, Bool.true_or, Bool.not_true] at hrest
        exact absurd hrest (by simp)
  obtain ⟨htake, hdrop⟩ :=
    takeWhile_append_all isDecDigit (natToChars n) rest (natToChars_digits n) hhead
  simp only [parseNatTok, htake, hdrop]
  rw [if_neg (by simp [natToChars_ne_nil n])]
  by_cases h0 : n = 0
  · subst h0
    rw [if_neg (by rw [show natToChars 0 = ['0'] from by rw [natToChars]; rfl]; simp)]
    rw [if_pos hrest]
    rw [show natToChars 0 = ['0'] from by rw [natToChars]; rfl]
    simp [digitsToNat]
  · rw [if_neg (fun hcon => h0 (natToChars_head_zero n hcon.1))]
    rw [if_pos hrest, digitsToNat_natToChars]

theorem parseIntTok_intToChars (i : Int) (rest : List Char)
    (hrest : numBoundary rest = true) :
    parseIntTok (intToChars i ++ rest) = some (i, rest) := by
  by_cases hneg : i < 0
  · simp only [intToChars, if_pos hneg, List.cons_append]
    simp only [parseIntTok]
    rw [if_pos trivial, parseNatTok_natToChars _ _ hrest]
    simp only [Option.map_some']
    have hni : -((i.natAbs : Nat) : Int) = i := by omega
    rw [hni]
  · simp only [intToChars, if_neg hneg]
    obtain ⟨c, tl, hctl, hcmem⟩ := natToChars_head i.toNat
    rw [hctl, List.cons_append]
    simp only [parseIntTok]
    rw [if_neg (by fin_cases hcmem <;> decide)]
    rw [← List.cons_append, ← hctl, parseNatTok_natToChars _ _ hrest]
    simp only [Option.map_some']
    have hni : ((i.toNat : Nat) : Int) = i := by omega
    rw [hni]

theorem hexVal_hexDigitChar : ∀ t, t < 16 → hexVal (Backend.hexDigitChar t) = t := by
  decide

theorem isHexDigitCI_hexDigitChar :
    ∀ t, t < 16 → isHexDigitCI (Backend.hexDigitChar t) = true := by
  decide

theorem parseEscape_unescape (ec c : Char) (z : List Char)
    (h : unescapeChar ec = some c) : parseEscape (ec :: z) = some (c, z) := by
  have hu : ¬(ec = 'u') := by
    intro he
    subst he
    simp [unescapeChar] at h
  simp only [parseEscape, if_neg hu, h]

theorem parseHex4_zeros (t : Nat) (ht : t < 32) :
    parseHex4 '0' '0' (Backend.hexDigitChar (t / 16))
      (Backend.hexDigitChar (t % 16)) = some t := by
  have h1 : t / 16 < 16 := by omega
  have h2 : t % 16 < 16 := by omega
  simp only [parseHex4, isHexDigitCI_hexDigitChar _ h1, isHexDigitCI_hexDigitChar _ h2]
  rw [if_pos (by decide)]
  rw [hexVal_hexDigitChar _ h1, hexVal_hexDigitChar _ h2]
  have hv : hexVal '0' * 4096 + hexVal '0' * 256 + t / 16 * 16 + t % 16 = t := by
    show (0 : Nat) * 4096 + 0 * 256 + t / 16 * 16 + t % 16 = t
    omega
  rw [hv]

theorem parseEscape_u (t : Nat) (z : List Char) (ht : t < 32) :
    parseEscape ('u' :: '0' :: '0' :: Backend.hexDigitChar (t / 16) ::
      Backend.hexDigitChar (t % 16) :: z) = some (Char.ofNat t, z) := by
  simp only [parseEscape, parseHex4_zeros t ht]
  simp [show t < 55296 by omega]

theorem parseStringLoop_backslash (f : Nat) (tl : List Char) :
    parseStringLoop (f + 1) ('\\' :: tl) =
      match parseEscape tl with
      | some (ch, rest2) =>
        (parseStringLoop f rest2).map (fun p => (ch :: p.1, p.2))
      | none => none := by
  simp [parseStringLoop]

theorem parseStringLoop_plain (f : Nat) (c : Char) (tl : List Char)
    (h1 : ¬(c = '"')) (h2 : ¬(c = '\\')) (h3 : ¬(c.toNat < 32)) :
    parseStringLoop (f + 1) (c :: tl) =
      (parseStringLoop f tl).map (fun p => (c :: p.1, p.2)) := by
  simp [parseStringLoop, h1, h2, h3]

theorem parseStringLoop_flat (s : List Char) :
    ∀ fuel rest, (s.flatMap escapeChar).length + 1 ≤ fuel →
      parseStringLoop fuel (s.flatMap escapeChar ++ '"' :: rest) = some (s, rest) := by
  induction s with
  | nil =>
    intro fuel rest hf
    cases fuel with
    | zero => omega
    | succ f =>
      show parseStringLoop (f + 1) ('"' :: rest) = some ([], rest)
      simp [parseStringLoop]
  | cons c cs ih =>
    intro fuel rest hf
    have hflat : (c :: cs).flatMap escapeChar =
        escapeChar c ++ cs.flatMap escapeChar := List.flatMap_cons c cs escapeChar
    rw [hflat] at hf ⊢
    rw [List.append_assoc]
    have hval : c.toNat < 0xD800 ∨ (0xE000 ≤ c.toNat ∧ c.toNat < 0x110000) := c.valid
    have hofn : Char.ofNat c.toNat = c := Char.ofNat_toNat c
    by_cases e1 : c = '"'
    · subst e1
      rw [show escapeChar '"' = ['\\', '"'] from by decide] at hf ⊢
      simp only [List.length_append, List.length_cons, List.length_nil] at hf
      cases fuel with
      | zero => omega
      | succ f =>
        show parseStringLoop (f + 1)
          ('\\' :: '"' :: (cs.flatMap escapeChar ++ '"' :: rest)) = some ('"' :: cs, rest)
        rw [parseStringLoop_backslash, parseEscape_unescape '"' '"' _ (by decide)]
        dsimp only
        rw [ih f rest (by omega)]
        rfl
    · by_cases e2 : c = '\\'
      · subst e2
        rw [show escapeChar '\\' = ['\\', '\\'] from by decide] at hf ⊢
        simp only [List.length_append, List.length_cons, List.length_nil] at hf
        cases fuel with
        | zero => omega
        | succ f =>
          show parseStringLoop (f + 1)
            ('\\' :: '\\' :: (cs.flatMap escapeChar ++ '"' :: rest)) =
            some ('\\' :: cs, rest)
          rw [parseStringLoop_backslash, parseEscape_unescape '\\' '\\' _ (by decide)]
          dsimp only
          rw [ih f rest (by omega)]
          rfl
      · by_cases e3 : c = Char.ofNat 8
        · subst e3
          rw [show escapeChar (Char.ofNat 8) = ['\\', 'b'] from by decide] at hf ⊢
          simp only [List.length_append, List.length_cons, List.length_nil] at hf
          cases fuel with
          | zero => omega
          | succ f =>
            show parseStringLoop (f + 1)
              ('\\' :: 'b' :: (cs.flatMap escapeChar ++ '"' :: rest)) =
              some (Char.ofNat 8 :: cs, rest)
            rw [parseStringLoop_backslash,
              parseEscape_unescape 'b' (Char.ofNat 8) _ (by decide)]
            dsimp only
            rw [ih f rest (by omega)]
            rfl
        · by_cases e4 : c = Char.ofNat 12
          · subst e4
            rw [show escapeChar (Char.ofNat 12) = ['\\', 'f'] from by decide] at hf ⊢
            simp only [List.length_append, List.length_cons, List.length_nil] at hf
            cases fuel with
            | zero => omega
            | succ f =>
              show parseStringLoop (f + 1)
                ('\\' :: 'f' :: (cs.flatMap escapeChar ++ '"' :: rest)) =
                some (Char.ofNat 12 :: cs, rest)
              rw [parseStringLoop_backslash,
                parseEscape_unescape 'f' (Char.ofNat 12) _ (by decide)]
              dsimp only
              rw [ih f rest (by omega)]
              rfl
          · by_cases e5 : c = Char.ofNat 10
            · subst e5
              rw [show escapeChar (Char.ofNat 10) = ['\\', 'n'] from by decide]
                at hf ⊢
              simp only [List.length_append, List.length_cons, List.length_nil] at hf
              cases fuel with
              | zero => omega
              | succ f =>
                show parseStringLoop (f + 1)
                  ('\\' :: 'n' :: (cs.flatMap escapeChar ++ '"' :: rest)) =
                  some (Char.ofNat 10 :: cs, rest)
                rw [parseStringLoop_backslash,
                  parseEscape_unescape 'n' (Char.ofNat 10) _ (by decide)]
                dsimp only
                rw [ih f rest (by omega)]
                rfl
            · by_cases e6 : c = Char.ofNat 13
              · subst e6
                rw [show escapeChar (Char.ofNat 13) = ['\\', 'r'] from by decide]
                  at hf ⊢
                simp only [List.length_append, List.length_cons, List.length_nil]
                  at hf
                cases fuel with
                | zero => omega
                | succ f =>
                  show parseStringLoop (f + 1)
                    ('\\' :: 'r' :: (cs.flatMap escapeChar ++ '"' :: rest)) =
                    some (Char.ofNat 13 :: cs, rest)
                  rw [parseStringLoop_backslash,
                    parseEscape_unescape 'r' (Char.ofNat 13) _ (by decide)]
                  dsimp only
                  rw [ih f rest (by omega)]
                  rfl
              · by_cases e7 : c = Char.ofNat 9
                · subst e7
                  rw [show escapeChar (Char.ofNat 9) = ['\\', 't'] from by decide]
                    at hf ⊢
                  simp only [List.length_append, List.length_cons, List.length_nil]
                    at hf
                  cases fuel with
                  | zero => omega
                  | succ f =>
                    show parseStringLoop (f + 1)
                      ('\\' :: 't' :: (cs.flatMap escapeChar ++ '"' :: rest)) =
                      some (Char.ofNat 9 :: cs, rest)
                    rw [parseStringLoop_backslash,
                      parseEscape_unescape 't' (Char.ofNat 9) _ (by decide)]
                    dsimp only
                    rw [ih f rest (by omega)]
                    rfl
                · by_cases e8 : c.toNat < 32
                  · rw [show escapeChar c = ['\\', 'u', '0', '0',
                        Backend.hexDigitChar (c.toNat / 16),
                        Backend.hexDigitChar (c.toNat % 16)] from by
                      simp only [escapeChar, if_neg e1, if_neg e2, if_neg e3,
                        if_neg e4, if_neg e5, if_neg e6, if_neg e7, if_pos e8]]
                      at hf ⊢
                    simp only [List.length_append, List.length_cons, List.length_nil]
                      at hf
                    cases fuel with
                    | zero => omega
                    | succ f =>
                      show parseStringLoop (f + 1)
                        ('\\' :: 'u' :: '0' :: '0' ::
                          Backend.hexDigitChar (c.toNat / 16) ::
                          Backend.hexDigitChar (c.toNat % 16) ::
                          (cs.flatMap escapeChar ++ '"' :: rest)) =
                        some (c :: cs, rest)
                      rw [parseStringLoop_backslash, parseEscape_u c.toNat _ e8,
                        hofn]
                      dsimp only
                      rw [ih f rest (by omega)]
                      rfl
                  · rw [show escapeChar c = [c] from by
                      simp only [escapeChar, if_neg e1, if_neg e2, if_neg e3,
                        if_neg e4, if_neg e5, if_neg e6, if_neg e7, if_neg e8]]
                      at hf ⊢
                    simp only [List.length_append, List.length_cons, List.length_nil]
                      at hf
                    cases fuel with
                    | zero => omega
                    | succ f =>
                      show parseStringLoop (f + 1)
                        (c :: (cs.flatMap escapeChar ++ '"' :: rest)) =
                        some (c :: cs, rest)
                      rw [parseStringLoop_plain f c _ e1 e2 e8]
                      rw [ih f rest (by omega)]
                      rfl

theorem parseStringBody_quote (s rest : List Char) :
    parseStringBody (s.flatMap escapeChar ++ '"' :: rest) = some (s, rest) := by
  unfold parseStringBody
  apply parseStringLoop_flat
  rw [List.length_append]
  simp only [List.length_cons]
  omega

mutual

/-- Fuel needed by `parseValue` on the serialization of a value. -/
def fuelNeeded : Json → Nat
  | .arr es => 1 + fuelElems es
  | .obj ms => 1 + fuelMembers ms
  | _ => 1

def fuelElems : List Json → Nat
  | [] => 1
  | v :: vs => 1 + max (fuelNeeded v) (fuelElems vs)

def fuelMembers : List (List Char × Json) → Nat
  | [] => 1
  | (_, v) :: ms => 1 + max (1 + fuelNeeded v) (fuelMembers ms)

end

theorem intToChars_head (i : Int) :
    ∃ c tl, intToChars i = c :: tl ∧
      c ∈ ['-', '0', '1', '2', '3', '4', Char.ofNat 53, '6', '7', '8', '9'] := by
  by_cases hneg : i < 0
  · exact ⟨'-', natToChars i.natAbs, by simp [intToChars, hneg], by decide⟩
  · obtain ⟨c, tl, hc, hm⟩ := natToChars_head i.toNat
    exact ⟨c, tl, by simp [intToChars, hneg, hc], by fin_cases hm <;> decide⟩

theorem jsonStringify_head (v : Json) :
    ∃ c tl, jsonStringify v = c :: tl ∧
      c ∈ ['n', 't', 'f', '"', '[', Char.ofNat 123, '-',
           '0', '1', '2', '3', '4', Char.ofNat 53, '6', '7', '8', '9'] := by
  cases v with
  | null => exact ⟨'n', ['u', 'l', 'l'], by simp [jsonStringify], by decide⟩
  | bool b =>
    cases b with
    | false =>
      exact ⟨'f', ['a', 'l', 's', 'e'], by simp [jsonStringify], by decide⟩
    | true => exact ⟨'t', ['r', 'u', 'e'], by simp [jsonStringify], by decide⟩
  | num n =>
    obtain ⟨c, tl, hc, hm⟩ := intToChars_head n
    exact ⟨c, tl, by simp [jsonStringify, hc], by fin_cases hm <;> decide⟩
  | str s =>
    exact ⟨'"', s.flatMap escapeChar ++ ['"'],
      by simp [jsonStringify, quoteString], by decide⟩
  | arr es =>
    exact ⟨'[', stringifyElems es ++ [']'], by simp [jsonStringify], by decide⟩
  | obj ms =>
    exact ⟨Char.ofNat 123, stringifyMembers ms ++ [Char.ofNat 125],
      by simp [jsonStringify], by decide⟩

theorem jsonStringify_length_pos (v : Json) : 1 ≤ (jsonStringify v).length := by
  obtain ⟨c, tl, hc, _⟩ := jsonStringify_head v
  simp [hc]

theorem stringifyElems_cons_shape (v : Json) (vs : List Json) :
    ∃ c tl, stringifyElems (v :: vs) = c :: tl ∧
      c ∈ ['n', 't', 'f', '"', '[', Char.ofNat 123, '-',
           '0', '1', '2', '3', '4', Char.ofNat 53, '6', '7', '8', '9'] := by
  obtain ⟨c, tl, hc, hm⟩ := jsonStringify_head v
  cases vs with
  | nil => exact ⟨c, tl, by simp [stringifyElems, hc], hm⟩
  | cons w ws =>
    exact ⟨c, tl ++ ',' :: stringifyElems (w :: ws),
      by simp [stringifyElems, hc], hm⟩

theorem stringifyMembers_cons_shape (k : List Char) (v : Json)
    (ms : List (List Char × Json)) :
    ∃ tl, stringifyMembers ((k, v) :: ms) = '"' :: tl := by
  cases ms with
  | nil =>
    refine ⟨(k.flatMap escapeChar ++ ['"']) ++ ':' :: jsonStringify v, ?_⟩
    simp [stringifyMembers, quoteString]
  | cons m ms2 =>
    refine ⟨(k.flatMap escapeChar ++ ['"']) ++ ':' :: jsonStringify v ++
      ',' :: stringifyMembers (m :: ms2), ?_⟩
    simp [stringifyMembers, quoteString]

theorem numBoundary_cons (c : Char) (r : List Char)
    (h : (isDecDigit c || c = '.' || c = 'e' || c = 'E') = false) :
    numBoundary (c :: r) = true := by
  simp only [numBoundary, h]
  rfl

mutual

theorem parseValue_stringify (v : Json) : ∀ fuel rest, fuelNeeded v ≤ fuel →
    numBoundary rest = true →
    parseValue fuel (jsonStringify v ++ rest) = some (v, rest) := by
  cases v with
  | null =>
    intro fuel rest hf hnum
    cases fuel with
    | zero => simp [fuelNeeded] at hf
    | succ f =>
      rw [show jsonStringify .null = ['n', 'u', 'l', 'l'] from by
        simp [jsonStringify]]
      show parseValue (f + 1) ('n' :: 'u' :: 'l' :: 'l' :: rest) =
        some (.null, rest)
      simp only [parseValue]
      rw [if_pos trivial]
      simp [expectChars]
  | bool b =>
    intro fuel rest hf hnum
    cases fuel with
    | zero => simp [fuelNeeded] at hf
    | succ f =>
      cases b with
      | true =>
        rw [show jsonStringify (.bool true) = ['t', 'r', 'u', 'e'] from by
          simp [jsonStringify]]
        show parseValue (f + 1) ('t' :: 'r' :: 'u' :: 'e' :: rest) =
          some (.bool true, rest)
        simp only [parseValue]
        rw [if_pos trivial]
        simp [expectChars]
      | false =>
        rw [show jsonStringify (.bool false) = ['f', 'a', 'l', 's', 'e'] from by
          simp [jsonStringify]]
        show parseValue (f + 1) ('f' :: 'a' :: 'l' :: 's' :: 'e' :: rest) =
          some (.bool false, rest)
        simp only [parseValue]
        rw [if_pos trivial]
        simp [expectChars]
  | num n =>
    intro fuel rest hf hnum
    cases fuel with
    | zero => simp [fuelNeeded] at hf
    | succ f =>
      rw [show jsonStringify (.num n) = intToChars n from by simp [jsonStringify]]
      obtain ⟨c, tl, hc, hm⟩ := intToChars_head n
      rw [hc, List.cons_append]
      simp only [parseValue]
      rw [if_neg (by fin_cases hm <;> decide), if_neg (by fin_cases hm <;> decide),
        if_neg (by fin_cases hm <;> decide), if_neg (by fin_cases hm <;> decide),
        if_neg (by fin_cases hm <;> decide), if_neg (by fin_cases hm <;> decide)]
      rw [← List.cons_append, ← hc, parseIntTok_intToChars n rest hnum]
      rfl
  | str s =>
    intro fuel rest hf hnum
    cases fuel with
    | zero => simp [fuelNeeded] at hf
    | succ f =>
      rw [show jsonStringify (.str s) = '"' :: (s.flatMap escapeChar ++ ['"'])
        from by simp [jsonStringify, quoteString]]
      rw [List.cons_append, List.append_assoc, List.singleton_append]
      simp only [parseValue]
      rw [if_pos trivial]
      rw [parseStringBody_quote s rest]
      rfl
  | arr es =>
    intro fuel rest hf hnum
    cases fuel with
    | zero => simp [fuelNeeded] at hf
    | succ f =>
      cases es with
      | nil =>
        rw [show jsonStringify (.arr []) = ['[', ']'] from by
          simp [jsonStringify, stringifyElems]]
        show parseValue (f + 1) ('[' :: ']' :: rest) = some (.arr [], rest)
        simp only [parseValue]
        rw [if_pos trivial]
        simp
      | cons v vs =>
        rw [show jsonStringify (.arr (v :: vs)) =
            '[' :: (stringifyElems (v :: vs) ++ [']']) from by
          simp [jsonStringify]]
        rw [List.cons_append, List.append_assoc, List.singleton_append]
        simp only [parseValue]
        rw [if_pos trivial]
        obtain ⟨d, dtl, hd, hdm⟩ := stringifyElems_cons_shape v vs
        rw [hd, List.cons_append]
        dsimp only
        have hdneq : ¬(d = ']') := by
          intro hcon
          rw [hcon] at hdm
          exact absurd hdm (by decide)
        rw [if_neg hdneq]
        rw [← List.cons_append, ← hd]
        have hfe : fuelElems (v :: vs) ≤ f := by
          simp only [fuelNeeded] at hf
          omega
        rw [parseElems_stringify (v :: vs) (by simp) f (']' :: rest) hfe
          (numBoundary_cons ']' rest (by decide)) (by simp)]
        simp [expectClose]
  | obj ms =>
    intro fuel rest hf hnum
    cases fuel with
    | zero => simp [fuelNeeded] at hf
    | succ f =>
      cases ms with
      | nil =>
        rw [show jsonStringify (.obj []) = [Char.ofNat 123, Char.ofNat 125] from by
          simp [jsonStringify, stringifyMembers]]
        show parseValue (f + 1) (Char.ofNat 123 :: Char.ofNat 125 :: rest) =
          some (.obj [], rest)
        simp only [parseValue]
        rw [if_pos trivial]
        simp
      | cons m ms2 =>
        obtain ⟨k, mv⟩ := m
        rw [show jsonStringify (.obj ((k, mv) :: ms2)) =
            Char.ofNat 123 :: (stringifyMembers ((k, mv) :: ms2) ++ [Char.ofNat 125])
          from by simp [jsonStringify]]
        rw [List.cons_append, List.append_assoc, List.singleton_append]
        simp only [parseValue]
        rw [if_pos trivial]
        obtain ⟨tl, htl⟩ := stringifyMembers_cons_shape k mv ms2
        rw [htl, List.cons_append]
        dsimp only
        rw [if_neg (by decide)]
        rw [← List.cons_append, ← htl]
        have hfm : fuelMembers ((k, mv) :: ms2) ≤ f := by
          simp only [fuelNeeded] at hf
          omega
        rw [parseMembers_stringify ((k, mv) :: ms2) (by simp) f
          (Char.ofNat 125 :: rest) hfm
          (numBoundary_cons (Char.ofNat 125) rest (by decide)) (by simp)]
        simp [expectClose]

theorem parseElems_stringify (vs : List Json) (hne : vs ≠ []) :
    ∀ fuel rest, fuelElems vs ≤ fuel → numBoundary rest = true →
      rest.head? ≠ some ',' →
      parseElems fuel (stringifyElems vs ++ rest) = some (vs, rest) := by
  cases vs with
  | nil => exact absurd rfl hne
  | cons v vs =>
    intro fuel rest hf hnum hcomma
    cases fuel with
    | zero => simp [fuelElems] at hf
    | succ f =>
      cases vs with
      | nil =>
        rw [show stringifyElems [v] = jsonStringify v from by simp [stringifyElems]]
        simp only [parseElems]
        have hfv : fuelNeeded v ≤ f := by
          rw [fuelElems] at hf
          omega
        rw [parseValue_stringify v f rest hfv hnum]
        cases rest with
        | nil => rfl
        | cons d r2 =>
          have hdneq : ¬(d = ',') := by
            intro hd
            exact hcomma (by rw [hd]; rfl)
          try dsimp only
          rw [if_neg hdneq]
      | cons w ws =>
        rw [show stringifyElems (v :: w :: ws) =
            jsonStringify v ++ ',' :: stringifyElems (w :: ws) from by
          simp [stringifyElems]]
        rw [List.append_assoc, List.cons_append]
        simp only [parseElems]
        have hfv : fuelNeeded v ≤ f := by
          rw [fuelElems] at hf
          omega
        have hfw : fuelElems (w :: ws) ≤ f := by
          rw [fuelElems] at hf
          omega
        rw [parseValue_stringify v f (',' :: (stringifyElems (w :: ws) ++ rest))
          hfv (numBoundary_cons ',' _ (by decide))]
        try dsimp only
        rw [if_pos rfl]
        rw [parseElems_stringify (w :: ws) (by simp) f rest hfw hnum hcomma]

theorem parseMembers_stringify (ms : List (List Char × Json)) (hne : ms ≠ []) :
    ∀ fuel rest, fuelMembers ms ≤ fuel → numBoundary rest = true →
      rest.head? ≠ some ',' →
      parseMembers fuel (stringifyMembers ms ++ rest) = some (ms, rest) := by
  cases ms with
  | nil => exact absurd rfl hne
  | cons m ms2 =>
    obtain ⟨k, mv⟩ := m
    intro fuel rest hf hnum hcomma
    cases fuel with
    | zero => simp [fuelMembers] at hf
    | succ f =>
      have hff : 1 + fuelNeeded mv ≤ f := by
        rw [fuelMembers] at hf
        omega
      obtain ⟨g, hg⟩ : ∃ g, f = g + 1 := ⟨f - 1, by omega⟩
      have hfv : fuelNeeded mv ≤ g := by omega
      subst hg
      cases ms2 with
      | nil =>
        rw [show stringifyMembers [(k, mv)] =
            quoteString k ++ ':' :: jsonStringify mv from by simp [stringifyMembers]]
        simp only [quoteString, List.cons_append, List.append_assoc,
          List.singleton_append, List.nil_append]
        simp only [parseMembers, parseMember]
        rw [if_pos trivial]
        rw [parseStringBody_quote k (':' :: (jsonStringify mv ++ rest))]
        try dsimp only
        rw [if_pos rfl]
        rw [parseValue_stringify mv g rest hfv hnum]
        cases rest with
        | nil => rfl
        | cons d r2 =>
          have hdneq : ¬(d = ',') := by
            intro hd
            exact hcomma (by rw [hd]; rfl)
          simp only [Option.map_some']
          rw [if_neg hdneq]
      | cons m2 ms3 =>
        have hfm : fuelMembers (m2 :: ms3) ≤ g + 1 := by
          rw [fuelMembers] at hf
          omega
        rw [show stringifyMembers ((k, mv) :: m2 :: ms3) =
            (quoteString k ++ ':' :: jsonStringify mv) ++
              ',' :: stringifyMembers (m2 :: ms3) from by simp [stringifyMembers]]
        simp only [quoteString, List.cons_append, List.append_assoc,
          List.singleton_append, List.nil_append]
        rw [parseMembers]
        rw [parseMember]
        try dsimp only
        rw [if_pos rfl]
        rw [parseStringBody_quote k
          (':' :: (jsonStringify mv ++ (',' :: (stringifyMembers (m2 :: ms3) ++ rest))))]
        try dsimp only
        rw [if_pos rfl]
        rw [parseValue_stringify mv g
          (',' :: (stringifyMembers (m2 :: ms3) ++ rest)) hfv
          (numBoundary_cons ',' _ (by decide))]
        simp only [Option.map_some']
        rw [if_pos trivial]
        rw [parseMembers_stringify (m2 :: ms3) (by simp) (g + 1) rest hfm hnum
          hcomma]

end

/-- `JSON.parse`: parse one value consuming the whole input. -/
def jsonParse (s : List Char) : Option Json :=
  match parseValue (s.length + 1) s with
  | some (v, []) => some v
  | _ => none

mutual

theorem fuelNeeded_le (v : Json) : fuelNeeded v ≤ (jsonStringify v).length := by
  cases v with
  | null => simp [fuelNeeded, jsonStringify]
  | bool b => cases b <;> simp [fuelNeeded, jsonStringify]
  | num n =>
    have h := jsonStringify_length_pos (.num n)
    simp only [fuelNeeded]
    omega
  | str s =>
    have h := jsonStringify_length_pos (.str s)
    simp only [fuelNeeded]
    omega
  | arr es =>
    have h := fuelElems_le es
    rw [fuelNeeded]
    rw [show jsonStringify (.arr es) = '[' :: (stringifyElems es ++ [']']) from by
      simp [jsonStringify]]
    simp only [List.length_cons, List.length_append, List.length_nil]
    omega
  | obj ms =>
    have h := fuelMembers_le ms
    rw [fuelNeeded]
    rw [show jsonStringify (.obj ms) =
        Char.ofNat 123 :: (stringifyMembers ms ++ [Char.ofNat 125]) from by
      simp [jsonStringify]]
    simp only [List.length_cons, List.length_append, List.length_nil]
    omega

theorem fuelElems_le (vs : List Json) :
    fuelElems vs ≤ (stringifyElems vs).length + 1 := by
  cases vs with
  | nil => rw [fuelElems]; omega
  | cons v vs =>
    have hv := fuelNeeded_le v
    have h1 := jsonStringify_length_pos v
    cases vs with
    | nil =>
      have he : fuelElems ([] : List Json) = 1 := by rw [fuelElems]
      rw [fuelElems, he]
      rw [show stringifyElems [v] = jsonStringify v from by simp [stringifyElems]]
      omega
    | cons w ws =>
      have hw := fuelElems_le (w :: ws)
      rw [fuelElems]
      rw [show stringifyElems (v :: w :: ws) =
          jsonStringify v ++ ',' :: stringifyElems (w :: ws) from by
        simp [stringifyElems]]
      simp only [List.length_append, List.length_cons]
      omega

theorem fuelMembers_le (ms : List (List Char × Json)) :
    fuelMembers ms ≤ (stringifyMembers ms).length + 1 := by
  cases ms with
  | nil => rw [fuelMembers]; omega
  | cons m ms2 =>
    obtain ⟨k, v⟩ := m
    have hv := fuelNeeded_le v
    have h1 := jsonStringify_length_pos v
    have hq : 2 ≤ (quoteString k).length := by
      simp only [quoteString, List.length_cons, List.length_append,
        List.length_nil]
      omega
    cases ms2 with
    | nil =>
      have he : fuelMembers ([] : List (List Char × Json)) = 1 := by
        rw [fuelMembers]
      rw [fuelMembers, he]
      rw [show stringifyMembers [(k, v)] = quoteString k ++ ':' :: jsonStringify v
        from by simp [stringifyMembers]]
      simp only [List.length_append, List.length_cons]
      omega
    | cons m2 ms3 =>
      have hm := fuelMembers_le (m2 :: ms3)
      rw [fuelMembers]
      rw [show stringifyMembers ((k, v) :: m2 :: ms3) =
          (quoteString k ++ ':' :: jsonStringify v) ++
            ',' :: stringifyMembers (m2 :: ms3) from by simp [stringifyMembers]]
      simp only [List.length_append, List.length_cons]
      omega

end

theorem jsonParse_stringify (v : Json) : jsonParse (jsonStringify v) = some v := by
  unfold jsonParse
  have h := parseValue_stringify v ((jsonStringify v).length + 1) []
    (by have := fuelNeeded_le v; omega) (by rfl)
  rw [List.append_nil] at h
  rw [h]

/-- `encryptData`: JSON-serialize, UTF-8 encode, AES-GCM encrypt under the hex
key with the drawn 12-byte IV, prepend the IV, base64 the whole blob. -/
def encryptData (data : Json) (key : List Char) (iv : List Nat) : List Char :=
  base64Encode (iv ++ gcmEncrypt (hexToKey key) iv (utf8Encode (jsonStringify data)))

/-- `decryptData`: base64-decode, split the leading 12-byte IV, AES-GCM
decrypt and authenticate, UTF-8 decode, JSON-parse.  `none` models the thrown
`InvalidCharacterError` / `OperationError` / `SyntaxError` rejections. -/
def decryptData (enc : List Char) (key : List Char) : Option Json :=
  match base64Decode enc with
  | none => none
  | some combined =>
    match gcmDecrypt (hexToKey key) (combined.take 12) (combined.drop 12) with
    | none => none
    | some pt =>
      match utf8Decode pt with
      | none => none
      | some s => jsonParse s

theorem decryptData_encryptData (data : Json) (key : List Char)
    (iv : List Nat) (hivlen : iv.length = 12) (hiv : ∀ b ∈ iv, b < 256) :
    decryptData (encryptData data key iv) key = some data := by
  unfold encryptData decryptData
  have hbytes : ∀ b ∈ iv ++
      gcmEncrypt (hexToKey key) iv (utf8Encode (jsonStringify data)), b < 256 := by
    intro b hb
    rcases List.mem_append.mp hb with h | h
    · exact hiv b h
    · exact gcmEncrypt_lt _ _ _ (utf8Encode_lt _) b h
  rw [base64_roundtrip _ hbytes]
  try dsimp only
  rw [List.take_left' hivlen, List.drop_left' hivlen]
  rw [gcmDecrypt_gcmEncrypt]
  try dsimp only
  rw [utf8_roundtrip]
  try dsimp only
  rw [jsonParse_stringify]

/-- C1: for every JSON payload (the embedded `Json` values: null, booleans,
integer numbers, strings, arrays, objects), every valid 32-hex-character key,
and every well-formed 12-byte IV drawn for the encryption, decrypting the
result of `encryptData` with the same key returns exactly the original
payload. -/
theorem claim1_encrypt_decrypt_roundtrip (data : Json) (key : List Char)
    (iv : List Nat) (_hkey : isValidEncryptionKey key = true)
    (hivlen : iv.length = 12) (hiv : ∀ b ∈ iv, b < 256) :
    decryptData (encryptData data key iv) key = some data :=
  decryptData_encryptData data key iv hivlen hiv

/-- C1 (witness): the round trip on the spec's concrete payload and key. -/
theorem claim1_encrypt_decrypt_roundtrip_witness :
    isValidEncryptionKey "00112233445566778899aabbccddeeff".data = true ∧
    (List.range 12).length = 12 ∧ (∀ b ∈ List.range 12, b < 256) ∧
    decryptData
      (encryptData (Json.obj [(['a'], Json.num 1)])
        "00112233445566778899aabbccddeeff".data (List.range 12))
      "00112233445566778899aabbccddeeff".data =
      some (Json.obj [(['a'], Json.num 1)]) :=
  ⟨by decide, by decide, by decide,
    claim1_encrypt_decrypt_roundtrip (Json.obj [(['a'], Json.num 1)])
      "00112233445566778899aabbccddeeff".data (List.range 12)
      (by decide) (by decide) (by decide)⟩

end Frontend
